import Mathlib

/-!
Shallow embedding of the qLDPCsim core (GF(2) sparse linear algebra,
stabilizer/CSS code algebra, belief-propagation decoding) together with
proofs about the embedded operations.

Rust integer indices become Nat, bit vectors become List Bool, byte
vectors become List Nat, and f64 arithmetic is read as exact real
arithmetic.  Constructors and operations that can panic are embedded as
Option-valued functions returning none exactly where the source panics.
-/

set_option maxHeartbeats 1600000

/-! ## Sparse binary matrices (src/math/sparse_matrix.rs) -/

structure BinarySparseMatrix where
  nRows : Nat
  nCols : Nat
  rowAdj : List (List Nat)
  colAdj : List (List Nat)
deriving DecidableEq, Repr

/-- The validation performed by BinarySparseMatrix::new: the length
asserts, and for every row index and every column index listed in that
row, the range checks and the membership check of the row index in the
corresponding column list.  (The check of row_idx against n_rows is in
the source but can never fire, since row_idx indexes row_adj whose
length was just checked.) -/
def newCheck (nRows nCols : Nat) (rowAdj colAdj : List (List Nat)) : Bool :=
  nRows == rowAdj.length && nCols == colAdj.length &&
    rowAdj.enum.all fun p =>
      p.2.all fun colIdx =>
        colIdx < nCols && p.1 < nRows && (colAdj.getD colIdx []).contains p.1

def BinarySparseMatrix.new (nRows nCols : Nat) (rowAdj colAdj : List (List Nat)) :
    Option BinarySparseMatrix :=
  if newCheck nRows nCols rowAdj colAdj then
    some ⟨nRows, nCols, rowAdj, colAdj⟩
  else
    none

/-- Rust adj[idx].push(val): append val to the idx-th list, none when idx
is out of range (the source panics on the indexing). -/
def adjPush (adj : List (List Nat)) (idx val : Nat) : Option (List (List Nat)) :=
  match adj.get? idx with
  | some l => some (adj.set idx (l ++ [val]))
  | none => none

/-- The derivation loop shared by from_row_adj and from_col_adj: for every
(outer index, neighbor list) pair, push the outer index onto the list of
each inner neighbor. -/
def buildDerived (init : List (List Nat)) (outer : List (List Nat)) :
    Option (List (List Nat)) :=
  outer.enum.foldlM
    (fun adj p => p.2.foldlM (fun a t => adjPush a t p.1) adj) init

def BinarySparseMatrix.fromRowAdj (nRows nCols : Nat) (rowAdj : List (List Nat)) :
    Option BinarySparseMatrix := do
  let colAdj ← buildDerived (List.replicate nCols []) rowAdj
  BinarySparseMatrix.new nRows nCols rowAdj colAdj

def BinarySparseMatrix.fromColAdj (nRows nCols : Nat) (colAdj : List (List Nat)) :
    Option BinarySparseMatrix := do
  let rowAdj ← buildDerived (List.replicate nRows []) colAdj
  BinarySparseMatrix.new nRows nCols rowAdj colAdj

def BinarySparseMatrix.zeros (nRows nCols : Nat) : Option BinarySparseMatrix :=
  BinarySparseMatrix.new nRows nCols (List.replicate nRows []) (List.replicate nCols [])

def BinarySparseMatrix.transpose (A : BinarySparseMatrix) : Option BinarySparseMatrix :=
  BinarySparseMatrix.fromColAdj A.nCols A.nRows A.rowAdj

/-- Product of a sparse matrix with a bit vector.  The source asserts the
length equality and then reads rhs[col_idx] for each listed column; the
read is total here (getD), which agrees with the source whenever the
listed columns are in range, as every matrix built through new satisfies. -/
def BinarySparseMatrix.mulVec (A : BinarySparseMatrix) (v : List Bool) :
    Option (List Bool) :=
  if A.nCols = v.length then
    some (A.rowAdj.map fun nb =>
      nb.foldl (fun parity c => if v.getD c false then !parity else parity) false)
  else
    none

/-- The parity of |row ∩ column| computed entrywise by the sparse
matrix-matrix product. -/
def rowDot (a b : List Nat) : Bool :=
  a.foldl (fun parity k => if b.contains k then !parity else parity) false

def BinarySparseMatrix.matMul (A B : BinarySparseMatrix) : Option BinarySparseMatrix :=
  if A.nCols = B.nRows then
    let rows := A.rowAdj.map fun nb =>
      (List.range B.nCols).filter fun c => rowDot nb (B.colAdj.getD c [])
    BinarySparseMatrix.fromRowAdj A.nRows B.nCols rows
  else
    none

/-- XOR of two sorted adjacency lists (merge keeping elements present in
exactly one input), as in the source. -/
def xorNeighbors : List Nat → List Nat → List Nat
  | [], b => b
  | a, [] => a
  | x :: a, y :: b =>
    if x = y then xorNeighbors a b
    else if x < y then x :: xorNeighbors a (y :: b)
    else y :: xorNeighbors (x :: a) b
termination_by a b => a.length + b.length

/-- Vec::swap on the working row list (always called in range by rank). -/
def swapRows (m : List (List Nat)) (i j : Nat) : List (List Nat) :=
  let vi := m.getD i []
  let vj := m.getD j []
  (m.set i vj).set j vi

/-- The elimination pass of rank for one pivot column: XOR the pivot row
(at position r) into every other row that contains the column. -/
def rankElim (m : List (List Nat)) (r col : Nat) : List (List Nat) :=
  let pivotRow := m.getD r []
  m.mapIdx fun row v =>
    if row ≠ r ∧ v.contains col then xorNeighbors v pivotRow else v

/-- One column of the Gaussian elimination in rank: find a pivot among
rows rank..nRows, swap it up, eliminate, bump the rank. -/
def rankStep (nRows : Nat) (st : List (List Nat) × Nat) (col : Nat) :
    List (List Nat) × Nat :=
  match (List.range' st.2 (nRows - st.2)).find?
      (fun row => (st.1.getD row []).contains col) with
  | none => st
  | some pivot =>
    let m1 := swapRows st.1 st.2 pivot
    (rankElim m1 st.2 col, st.2 + 1)

def BinarySparseMatrix.rank (A : BinarySparseMatrix) : Nat :=
  ((List.range A.nCols).foldl (rankStep A.nRows) (A.rowAdj, 0)).2

/-! Specification-side predicates about sparse matrices. -/

/-- Mutual adjacency consistency as the spec states it: the two adjacency
lists have the declared lengths, membership agrees in both directions and
every listed index is in range. -/
def consistentB (A : BinarySparseMatrix) : Bool :=
  A.rowAdj.length == A.nRows && A.colAdj.length == A.nCols &&
    ((List.range A.nRows).all fun i => (List.range A.nCols).all fun j =>
      (A.rowAdj.getD i []).contains j == (A.colAdj.getD j []).contains i) &&
    (A.rowAdj.all fun nb => nb.all fun c => c < A.nCols) &&
    (A.colAdj.all fun nb => nb.all fun r => r < A.nRows)

/-- The half of the consistency check that new actually performs:
every column listed in a row is in range and the row appears in that
column's list. -/
def halfConsistentB (A : BinarySparseMatrix) : Bool :=
  A.rowAdj.length == A.nRows && A.colAdj.length == A.nCols &&
    A.rowAdj.enum.all fun p => p.2.all fun c =>
      c < A.nCols && (A.colAdj.getD c []).contains p.1

/-- Validity of the row data of a matrix: declared row count matches, the
rows are strictly sorted (hence duplicate free) and every listed column is
in range.  Every matrix the library constructs from sorted row data
satisfies this. -/
def rowsWellFormed (A : BinarySparseMatrix) : Prop :=
  A.rowAdj.length = A.nRows ∧
    (∀ r ∈ A.rowAdj, List.Pairwise (· < ·) r) ∧
    ∀ r ∈ A.rowAdj, ∀ c ∈ r, c < A.nCols

instance instDecRowsWellFormed (A : BinarySparseMatrix) :
    Decidable (rowsWellFormed A) :=
  inferInstanceAs (Decidable (_ ∧ (∀ r ∈ A.rowAdj, List.Pairwise (· < ·) r) ∧ _))

/-! ## Error vectors and syndromes (src/code/error_vector.rs) -/

structure ErrorVector where
  xPart : List Bool
  zPart : List Bool
deriving DecidableEq, Repr

def ErrorVector.new (xPart zPart : List Bool) : Option ErrorVector :=
  if xPart.length = zPart.length then some ⟨xPart, zPart⟩ else none

structure Syndrome where
  zSyndrome : List Bool
  xSyndrome : List Bool
deriving DecidableEq, Repr

/-! ## CSS codes (src/code/css_code.rs) -/

structure CssCode where
  hz : BinarySparseMatrix
  hx : BinarySparseMatrix
deriving DecidableEq, Repr

/-- CssCode::from_parity_check_matrices, with the usize subtraction in
`let k = hz.cols() - hz.rank() - hx.rank()` read over Int so that the
underflow panic and the failed `k > 0` assert both become none. -/
def CssCode.fromParityCheckMatrices (hz hx : BinarySparseMatrix) : Option CssCode := do
  let hzT ← hz.transpose
  let val ← hx.matMul hzT
  let z ← BinarySparseMatrix.zeros hx.nRows hz.nRows
  if val = z then
    if 0 < (hz.nCols : Int) - hz.rank - hx.rank then some ⟨hz, hx⟩ else none
  else
    none

def CssCode.numQubits (c : CssCode) : Nat := c.hz.nCols

def CssCode.n (c : CssCode) : Nat := c.hz.nCols

def CssCode.k (c : CssCode) : Nat := c.hz.nCols - c.hz.rank - c.hx.rank

def CssCode.syndrome (c : CssCode) (e : ErrorVector) : Option Syndrome := do
  let syndromeZ ← c.hz.mulVec e.xPart
  let syndromeX ← c.hx.mulVec e.zPart
  some ⟨syndromeZ, syndromeX⟩

/-! ## Pauli phases (src/code/paulis.rs and src/code/stabilizer.rs) -/

inductive Phase where
  | One
  | I
  | MinusOne
  | MinusI
deriving DecidableEq, Repr

def Phase.mul : Phase → Phase → Phase
  | .One, p => p
  | p, .One => p
  | .I, .I => .MinusOne
  | .I, .MinusI => .One
  | .MinusI, .I => .One
  | .MinusI, .MinusI => .MinusOne
  | .I, .MinusOne => .MinusI
  | .MinusOne, .I => .MinusI
  | .MinusI, .MinusOne => .I
  | .MinusOne, .MinusI => .I
  | .MinusOne, .MinusOne => .One

/-! ## Pauli string parsing, shared by Paulis::from_stirng and
PauliString::from_stirng (identical code in the two files).  Rust
iterates s.chars(); the embedding works on the character list. -/

def isPauliChar (c : Char) : Bool :=
  c = 'I' || c = 'X' || c = 'Y' || c = 'Z'

def parsePhase : List Char → Option Phase
  | [] => none
  | first :: rest =>
    if first = '+' then
      match rest with
      | [] => none
      | second :: _ =>
        if isPauliChar second then some .One
        else if second = 'i' then some .I
        else none
    else if first = '-' then
      match rest with
      | [] => none
      | second :: _ =>
        if isPauliChar second then some .MinusOne
        else if second = 'i' then some .MinusI
        else none
    else if first = 'i' then some .I
    else if isPauliChar first then some .One
    else none

/-- The per-character action of the operator pass: phase characters are
skipped, Pauli characters push a (z, x) bit pair, anything else fails. -/
def charStep (c : Char) : Option (Option (Bool × Bool)) :=
  if c = '+' || c = '-' || c = 'i' then some none
  else if c = 'I' then some (some (false, false))
  else if c = 'X' then some (some (false, true))
  else if c = 'Y' then some (some (true, true))
  else if c = 'Z' then some (some (true, false))
  else none

/-- The operator pass of parsing: skip phase characters anywhere, push a
(z, x) bit pair for each Pauli character, fail on anything else. -/
def parsePauliBits : List Char → Option (List Bool × List Bool)
  | [] => some ([], [])
  | c :: rest => do
    let zx ← parsePauliBits rest
    match charStep c with
    | none => none
    | some none => some zx
    | some (some d) => some (d.1 :: zx.1, d.2 :: zx.2)

/-! ## PauliString (src/code/stabilizer.rs): phase and the two bit parts
stored directly. -/

structure PauliString where
  numQubits : Nat
  phase : Phase
  zPart : List Bool
  xPart : List Bool
deriving DecidableEq, Repr

def PauliString.new (numQubits : Nat) (phase : Phase) (zPart xPart : List Bool) :
    Option PauliString :=
  if numQubits = zPart.length ∧ numQubits = xPart.length then
    some ⟨numQubits, phase, zPart, xPart⟩
  else
    none

def PauliString.fromChars (s : List Char) : Option PauliString := do
  let phase ← parsePhase s
  let zx ← parsePauliBits s
  PauliString.new zx.1.length phase zx.1 zx.2

/-- The per-position phase step of the Pauli product: the 12-arm match of
the source on (a_z, a_x, b_z, b_x). -/
def mulPhaseStep (ph : Phase) (az ax bz bx : Bool) : Phase :=
  match az, ax, bz, bx with
  | false, false, _, _ => ph
  | _, _, false, false => ph
  | true, false, true, false => ph
  | false, true, false, true => ph
  | true, true, true, true => ph
  | false, true, true, true => ph.mul .I
  | true, true, true, false => ph.mul .I
  | true, false, false, true => ph.mul .I
  | false, true, true, false => ph.mul .MinusI
  | true, true, false, true => ph.mul .MinusI
  | true, false, true, true => ph.mul .MinusI

/-- One position of the Pauli product loop: read the four bits, update
the phase, push the XORed bits. -/
def mulStep (a b : PauliString) (acc : Phase × List Bool × List Bool) (i : Nat) :
    Phase × List Bool × List Bool :=
  let az := a.zPart.getD i false
  let ax := a.xPart.getD i false
  let bz := b.zPart.getD i false
  let bx := b.xPart.getD i false
  (mulPhaseStep acc.1 az ax bz bx,
    acc.2.1 ++ [xor az bz], acc.2.2 ++ [xor ax bx])

/-- Mul of PauliString: loop over positions, pushing the XORed bits and
accumulating the phase correction. -/
def PauliString.mul (a b : PauliString) : Option PauliString :=
  if a.numQubits = b.numQubits then
    let r := (List.range a.numQubits).foldl (mulStep a b) (a.phase.mul b.phase, [], [])
    PauliString.new a.numQubits r.1 r.2.1 r.2.2
  else
    none

/-! Specification-side single-qubit Pauli algebra for Table 1. -/

inductive PauliKind where
  | opI
  | opX
  | opY
  | opZ
deriving DecidableEq, Repr

def kindOf (z x : Bool) : PauliKind :=
  match z, x with
  | false, false => .opI
  | false, true => .opX
  | true, true => .opY
  | true, false => .opZ

/-- Table 1 of the spec: the per-position phase correction of the Pauli
product. -/
def tableCorrection : PauliKind → PauliKind → Phase
  | .opI, _ => .One
  | _, .opI => .One
  | .opX, .opX => .One
  | .opY, .opY => .One
  | .opZ, .opZ => .One
  | .opX, .opY => .I
  | .opY, .opZ => .I
  | .opZ, .opX => .I
  | .opX, .opZ => .MinusI
  | .opY, .opX => .MinusI
  | .opZ, .opY => .MinusI

/-! ## BinarySymplecticVector (src/code/binary_symplectic.rs) and Paulis
(src/code/paulis.rs). -/

structure BinarySymplecticVector where
  xPart : List Bool
  zPart : List Bool
deriving DecidableEq, Repr

/-- BinarySymplecticVector::new(x_part, z_part): the first parameter is
stored in the x_part field, the second in the z_part field. -/
def BinarySymplecticVector.new (xPart zPart : List Bool) :
    Option BinarySymplecticVector :=
  if zPart.length = xPart.length then some ⟨xPart, zPart⟩ else none

/-- inner_product of src/math/bit_linear_algebra.rs. -/
def innerProduct (a b : List Bool) : Option Bool :=
  if a.length = b.length then
    some ((List.range a.length).foldl
      (fun parity i => if a.getD i false && b.getD i false then !parity else parity)
      false)
  else
    none

def BinarySymplecticVector.symplecticProduct (a b : BinarySymplecticVector) :
    Option Bool :=
  if a.zPart.length = b.zPart.length then do
    let term1 ← innerProduct a.zPart b.xPart
    let term2 ← innerProduct a.xPart b.zPart
    some (xor term1 term2)
  else
    none

structure Paulis where
  numQubits : Nat
  phase : Phase
  binarySymplecticVector : BinarySymplecticVector
deriving DecidableEq, Repr

/-- Paulis::new(num_qubits, phase, z_part, x_part): after the length
asserts it calls BinarySymplecticVector::new(z_part, x_part), i.e. it
passes its z argument into the x_part parameter and its x argument into
the z_part parameter. -/
def Paulis.new (numQubits : Nat) (phase : Phase) (zPart xPart : List Bool) :
    Option Paulis :=
  if numQubits = zPart.length ∧ numQubits = xPart.length then
    (BinarySymplecticVector.new zPart xPart).map fun v => ⟨numQubits, phase, v⟩
  else
    none

def Paulis.fromChars (s : List Char) : Option Paulis := do
  let phase ← parsePhase s
  let zx ← parsePauliBits s
  Paulis.new zx.1.length phase zx.1 zx.2

def Paulis.commutes (a b : Paulis) : Option Bool :=
  if a.numQubits = b.numQubits then
    (a.binarySymplecticVector.symplecticProduct b.binarySymplecticVector).map (!·)
  else
    none

/-! ## Belief-propagation decoder (src/decoder/bp.rs), f64 read as ℝ.

The BpSparse edge store keyed by (row, col) becomes two total message
functions; an entry (i, j) exists exactly when j is listed in row i of
the parity-check matrix, and every update through update_edge_msg is
guarded by that existence condition, as in the source.  The random
shuffle of the serial order (random_serial_schedule = true) draws from an
OS RNG and is not modelled; all theorems below assume it is off. -/

inductive BpMethod where
  | ProductSum
  | MinimumSum
deriving DecidableEq, Repr

inductive BpSchedule where
  | Serial
  | Parallel
  | SerialRelative
deriving DecidableEq, Repr

structure BpDecoder where
  pcm : BinarySparseMatrix
  bpMethod : BpMethod
  schedule : BpSchedule
  maximumIterations : Nat
  msScalingFactor : ℝ
  randomSerialSchedule : Bool
  channelProbabilities : List ℝ

def BpDecoder.fromPcm (pcm : BinarySparseMatrix) (bpMethod : BpMethod)
    (schedule : BpSchedule) (maxIterations : Nat) (msScalingFactor : ℝ)
    (randomSerialSchedule : Bool) (channelProbabilities : List ℝ) : BpDecoder :=
  ⟨pcm, bpMethod, schedule, maxIterations, msScalingFactor,
    randomSerialSchedule, channelProbabilities⟩

def BpDecoder.bitCount (d : BpDecoder) : Nat := d.pcm.nCols

/-- Mutable decoder scratch state: the two per-edge messages, the initial
and current log probability ratios and the current hard decision, all as
total maps (from_pcm zero-initialises everything). -/
structure BpState where
  b2c : Nat → Nat → ℝ
  c2b : Nat → Nat → ℝ
  lpr0 : Nat → ℝ
  lpr : Nat → ℝ
  dec : Nat → Nat

def BpState.zero : BpState :=
  ⟨fun _ _ => 0, fun _ _ => 0, fun _ => 0, fun _ => 0, fun _ => 0⟩

/-- Whether the edge (i, j) exists in the BpSparse entry map. -/
def edgeMem (H : BinarySparseMatrix) (i j : Nat) : Prop :=
  j ∈ H.rowAdj.getD i []

instance (H : BinarySparseMatrix) (i j : Nat) : Decidable (edgeMem H i j) := by
  unfold edgeMem
  infer_instance

noncomputable def llr0 (p : ℝ) : ℝ := Real.log ((1 - p) / p)

/-- initialise_log_domain_bp: set the initial LLRs from the channel
probabilities and write them onto every existing edge of each column. -/
noncomputable def initLogDomainBp (d : BpDecoder) (st : BpState) : BpState :=
  { st with
    lpr0 := fun j =>
      if j < d.bitCount then llr0 (d.channelProbabilities.getD j 0) else st.lpr0 j
    b2c := fun i j =>
      if j < d.bitCount ∧ i ∈ d.pcm.colAdj.getD j [] ∧ edgeMem d.pcm i j then
        llr0 (d.channelProbabilities.getD j 0)
      else st.b2c i j }

/-- The value f64::MAX, the sentinel the min-sum sweeps start from. -/
noncomputable def f64MAX : ℝ := 1.7976931348623157 * 10 ^ (308 : Nat)

/-- The clamp applied in the serial sum-product branch:
term.max(-0.9999999).min(0.9999999). -/
noncomputable def clampUnit (term : ℝ) : ℝ :=
  min (max term (-0.9999999)) 0.9999999

/-- The raw product of tanh(msg/2) over the other edges of a check row,
as accumulated by the serial sum-product branch. -/
noncomputable def psProdOthers (H : BinarySparseMatrix) (st : BpState)
    (checkIdx bitIdx : Nat) : ℝ :=
  ((H.rowAdj.getD checkIdx []).filter (fun l => l ≠ bitIdx)).foldl
    (fun acc l => acc * Real.tanh (st.b2c checkIdx l / 2)) 1

/-- The argument handed to ln((1+x)/(1-x)) by the serial sum-product
check update: the signed product, clamped. -/
noncomputable def psLnArgSerial (H : BinarySparseMatrix) (syndrome : List Nat)
    (st : BpState) (checkIdx bitIdx : Nat) : ℝ :=
  let sgnVal : ℝ := if syndrome.getD checkIdx 0 ≠ 0 then -1 else 1
  clampUnit (sgnVal * psProdOthers H st checkIdx bitIdx)

/-- The serial sum-product check-to-bit message. -/
noncomputable def checkToBitPS (H : BinarySparseMatrix) (syndrome : List Nat)
    (st : BpState) (checkIdx bitIdx : Nat) : ℝ :=
  let clamped := psLnArgSerial H syndrome st checkIdx bitIdx
  Real.log ((1 + clamped) / (1 - clamped))

open Classical in
/-- The serial min-sum check-to-bit message. -/
noncomputable def checkToBitMS (H : BinarySparseMatrix) (syndrome : List Nat)
    (alpha : ℝ) (st : BpState) (checkIdx bitIdx : Nat) : ℝ :=
  let others := (H.rowAdj.getD checkIdx []).filter (fun l => l ≠ bitIdx)
  let minVal := others.foldl (fun mv l => min mv |st.b2c checkIdx l|) f64MAX
  let sgn := syndrome.getD checkIdx 0 +
    others.countP (fun l => decide (st.b2c checkIdx l ≤ 0))
  let messageSign : ℝ := if sgn % 2 = 0 then 1 else -1
  alpha * messageSign * minVal

/-- One check of Step A of the serial sweep: compute the fresh
check-to-bit message from the current state, store it on the edge (when
the edge exists) and add it to the bit's LLR. -/
noncomputable def serialStepA (d : BpDecoder) (syndrome : List Nat) (alpha : ℝ)
    (bitIdx : Nat) (s : BpState) (checkIdx : Nat) : BpState :=
  let msg := match d.bpMethod with
    | .ProductSum => checkToBitPS d.pcm syndrome s checkIdx bitIdx
    | .MinimumSum => checkToBitMS d.pcm syndrome alpha s checkIdx bitIdx
  { s with
    c2b := fun a b =>
      if a = checkIdx ∧ b = bitIdx ∧ edgeMem d.pcm checkIdx bitIdx then msg
      else s.c2b a b
    lpr := Function.update s.lpr bitIdx (s.lpr bitIdx + msg) }

open Classical in
/-- One bit of the serial sweep: reset the LLR from the channel, fold the
fresh check-to-bit messages into it (Step A), then take the hard decision
and refresh the outgoing bit-to-check messages (Step B). -/
noncomputable def serialBitUpdate (d : BpDecoder) (syndrome : List Nat) (alpha : ℝ)
    (st : BpState) (bitIdx : Nat) : BpState :=
  let p := d.channelProbabilities.getD bitIdx 0
  let checks := d.pcm.colAdj.getD bitIdx []
  let stA : BpState := checks.foldl (serialStepA d syndrome alpha bitIdx)
    { st with lpr := Function.update st.lpr bitIdx (llr0 p) }
  let decBit : Nat := if stA.lpr bitIdx ≤ 0 then 1 else 0
  { stA with
    dec := Function.update stA.dec bitIdx decBit
    b2c := fun a b =>
      if b = bitIdx ∧ a ∈ checks ∧ edgeMem d.pcm a bitIdx then
        stA.lpr bitIdx - stA.c2b a b
      else stA.b2c a b }

/-- Modelled from the spec: the `impl Mul<&Vec<u8>> for &BinarySparseMatrix`
used for the serial candidate-syndrome computation is absent from the
sources (only the BitVec instance is present); per the spec the candidate
syndrome is H · d over GF(2) on 0/1 byte vectors. -/
def mulVecU8 (A : BinarySparseMatrix) (v : List Nat) : List Nat :=
  A.rowAdj.map fun nb => (nb.countP fun c => v.getD c 0 ≠ 0) % 2

/-- The serial-relative reliability key: |ln((1-p)/p)| on iteration 1,
|λ| afterwards. -/
noncomputable def serialRelKey (d : BpDecoder) (st : BpState) (it idx : Nat) : ℝ :=
  if it = 1 then |llr0 (d.channelProbabilities.getD idx 0)| else |st.lpr idx|

open Classical in
/-- The bit order of one serial iteration: natural order for Serial (the
random shuffle is not modelled), stable descending-reliability sort for
SerialRelative. -/
noncomputable def serialOrder (d : BpDecoder) (st : BpState) (it : Nat) : List Nat :=
  if d.schedule = BpSchedule.SerialRelative then
    (List.range d.bitCount).mergeSort fun a b =>
      decide (serialRelKey d st it b ≤ serialRelKey d st it a)
  else
    List.range d.bitCount

open Classical in
noncomputable def msAlpha (d : BpDecoder) (it : Nat) : ℝ :=
  if d.msScalingFactor = 0 then 1 - 2 ^ (-(it : ℝ)) else d.msScalingFactor

/-- The decoded word, the convergence flag and the iteration counter. -/
structure BpResult where
  decoding : List Nat
  converge : Bool
  iterations : Nat

noncomputable def decList (d : BpDecoder) (st : BpState) : List Nat :=
  (List.range d.bitCount).map st.dec

/-- The iteration loop of bp_decode_serial. -/
noncomputable def serialIterate (d : BpDecoder) (syndrome : List Nat) :
    Nat → Nat → BpState → BpState × Bool × Nat
  | 0, itDone, st => (st, false, itDone)
  | fuel + 1, itDone, st =>
    let it := itDone + 1
    let stS := (serialOrder d st it).foldl (serialBitUpdate d syndrome (msAlpha d it)) st
    if mulVecU8 d.pcm (decList d stS) = syndrome then (stS, true, it)
    else serialIterate d syndrome fuel it stS

noncomputable def bpDecodeSerial (d : BpDecoder) (syndrome : List Nat) : BpResult :=
  let st0 := initLogDomainBp d BpState.zero
  let r := serialIterate d syndrome d.maximumIterations 0 st0
  ⟨decList d r.1, r.2.1, r.2.2⟩

/-! The parallel (flooding) schedule.  The forward/backward sweeps of the
check-node update compute, for the edge at position k of a row, the
product (or minimum, or negative-message count) over the other positions;
the embedding computes those position-k quantities directly from the
prefix before k and the suffix after k of the row. -/

/-- The argument handed to ln((1+x)/(1-x)) by the parallel sum-product
check update for the edge at position k of row checkIdx: the product of
tanh(msg/2) over the other positions, with no clamping. -/
noncomputable def psLnArgParallel (H : BinarySparseMatrix) (st : BpState)
    (checkIdx k : Nat) : ℝ :=
  let ts := (H.rowAdj.getD checkIdx []).map fun l => Real.tanh (st.b2c checkIdx l / 2)
  ((ts.take k).foldl (· * ·) 1) * ((ts.drop (k + 1)).foldl (· * ·) 1)

/-- The parallel sum-product check-to-bit message at row position k. -/
noncomputable def parCheckMsgPS (H : BinarySparseMatrix) (syndrome : List Nat)
    (st : BpState) (checkIdx k : Nat) : ℝ :=
  let messageSign : ℝ := if syndrome.getD checkIdx 0 ≠ 0 then -1 else 1
  messageSign *
    Real.log ((1 + psLnArgParallel H st checkIdx k) /
      (1 - psLnArgParallel H st checkIdx k))

open Classical in
/-- The parallel min-sum check-to-bit message at row position k. -/
noncomputable def parCheckMsgMS (H : BinarySparseMatrix) (syndrome : List Nat)
    (alpha : ℝ) (st : BpState) (checkIdx k : Nat) : ℝ :=
  let row := H.rowAdj.getD checkIdx []
  let others := row.take k ++ row.drop (k + 1)
  let minVal := others.foldl (fun mv l => min mv |st.b2c checkIdx l|) f64MAX
  let totalSgn := syndrome.getD checkIdx 0 +
    row.countP (fun l => decide (st.b2c checkIdx l ≤ 0))
  let selfAdd := if st.b2c checkIdx (row.getD k 0) ≤ 0 then 1 else 0
  let messageSign : ℝ := if (totalSgn + selfAdd) % 2 = 0 then 1 else -1
  minVal * (messageSign * alpha)

/-- The check-node phase of one parallel iteration: every existing edge
gets its fresh check-to-bit message; with duplicate-free rows the row
position of an edge (i, j) is the index of j in row i. -/
noncomputable def parallelCheckPhase (d : BpDecoder) (syndrome : List Nat)
    (alpha : ℝ) (st : BpState) : BpState :=
  { st with
    c2b := fun i j =>
      if edgeMem d.pcm i j then
        let k := (d.pcm.rowAdj.getD i []).indexOf j
        match d.bpMethod with
        | .ProductSum => parCheckMsgPS d.pcm syndrome st i k
        | .MinimumSum => parCheckMsgMS d.pcm syndrome alpha st i k
      else st.c2b i j }

open Classical in
/-- The variable-node phase: new LLRs as channel LLR plus the incoming
column messages, and the hard decision. -/
noncomputable def parallelBitPhase (d : BpDecoder) (st : BpState) : BpState :=
  { st with
    lpr := fun j =>
      if j < d.bitCount then
        st.lpr0 j + ((d.pcm.colAdj.getD j []).filter
          (fun i => decide (edgeMem d.pcm i j))).foldl (fun t i => t + st.c2b i j) 0
      else st.lpr j
    dec := fun j => if j < d.bitCount then (if st.lpr0 j + ((d.pcm.colAdj.getD j []).filter
          (fun i => decide (edgeMem d.pcm i j))).foldl (fun t i => t + st.c2b i j) 0 ≤ 0
        then 1 else 0)
      else st.dec j }

/-- The candidate syndrome accumulated by flipping, for every decided
bit, the checks of its column: entry i is the parity of the number of
decided bits whose column contains i. -/
def parallelCandidate (d : BpDecoder) (dec : Nat → Nat) : List Nat :=
  (List.range d.pcm.nRows).map fun i =>
    ((List.range d.bitCount).countP fun j =>
      dec j = 1 && (d.pcm.colAdj.getD j []).contains i) % 2

/-- The outgoing-message phase: every existing edge gets
bit_to_check = λ[j] − check_to_bit, via the forward partial sums stored
during the variable-node phase plus the reverse accumulation. -/
noncomputable def parallelOutPhase (d : BpDecoder) (st : BpState) : BpState :=
  { st with
    b2c := fun i j =>
      if j < d.bitCount ∧ i ∈ d.pcm.colAdj.getD j [] ∧ edgeMem d.pcm i j then
        st.lpr j - st.c2b i j
      else st.b2c i j }

/-- The iteration loop of bp_decode_parallel: check-node update, variable
update with convergence test, then (only when not converged) the
outgoing-message update. -/
noncomputable def parallelIterate (d : BpDecoder) (syndrome : List Nat) :
    Nat → Nat → BpState → BpState × Bool × Nat
  | 0, itDone, st => (st, false, itDone)
  | fuel + 1, itDone, st =>
    let it := itDone + 1
    let stC := parallelCheckPhase d syndrome (msAlpha d it) st
    let stV := parallelBitPhase d stC
    if parallelCandidate d stV.dec = syndrome then (stV, true, it)
    else parallelIterate d syndrome fuel it (parallelOutPhase d stV)

noncomputable def bpDecodeParallel (d : BpDecoder) (syndrome : List Nat) : BpResult :=
  let st0 := initLogDomainBp d BpState.zero
  let r := parallelIterate d syndrome d.maximumIterations 0 st0
  ⟨decList d r.1, r.2.1, r.2.2⟩

noncomputable def BpDecoder.decode (d : BpDecoder) (syndrome : List Nat) : BpResult :=
  if d.schedule = BpSchedule.Parallel then bpDecodeParallel d syndrome
  else bpDecodeSerial d syndrome

/-! ## CSS wrapper (src/decoder/bp_css.rs) -/

/-- The rate interface of the ErrorChannel trait
(src/channel/traits.rs): the three per-qubit error rates. -/
structure ChannelRates where
  xErrorRate : ℝ
  yErrorRate : ℝ
  zErrorRate : ℝ

structure BpDecoderCss where
  decoderX : BpDecoder
  decoderZ : BpDecoder

def BpDecoderCss.new (code : CssCode) (errorChannel : ChannelRates)
    (bpMethod : BpMethod) (schedule : BpSchedule) (maxIterations : Nat)
    (msScalingFactor : ℝ) (randomSerialSchedule : Bool) : BpDecoderCss :=
  let errorRateX := errorChannel.xErrorRate + errorChannel.yErrorRate
  let errorRateZ := errorChannel.zErrorRate + errorChannel.yErrorRate
  let channelProbabilitiesX := List.replicate code.numQubits errorRateX
  let channelProbabilitiesZ := List.replicate code.numQubits errorRateZ
  { decoderX := BpDecoder.fromPcm code.hx bpMethod schedule maxIterations
      msScalingFactor randomSerialSchedule channelProbabilitiesZ
    decoderZ := BpDecoder.fromPcm code.hz bpMethod schedule maxIterations
      msScalingFactor randomSerialSchedule channelProbabilitiesX }

def toU8 (v : List Bool) : List Nat :=
  v.map fun bit => if bit then 1 else 0

/-- Modelled from the spec: ErrorVector::from_u8vec is called by
BpDecoderCss::decode but absent from src/code/error_vector.rs; per the
spec it is the byte-vector convenience form of an error pattern, with
0/1 bytes carrying the same semantics as bits. -/
def ErrorVector.fromU8vec (x z : List Nat) : ErrorVector :=
  ⟨x.map (fun b => b ≠ 0), z.map (fun b => b ≠ 0)⟩

noncomputable def BpDecoderCss.decode (dec : BpDecoderCss) (syndrome : Syndrome) :
    ErrorVector :=
  let syndromeX := toU8 syndrome.xSyndrome
  let syndromeZ := toU8 syndrome.zSyndrome
  let errorZ := (dec.decoderX.decode syndromeX).decoding
  let errorX := (dec.decoderZ.decode syndromeZ).decoding
  ErrorVector.fromU8vec errorX errorZ

/-! Specification-side helpers used to state the claims. -/

/-- The total core of mulVec: one parity fold per row. -/
def mulVecBits (A : BinarySparseMatrix) (v : List Bool) : List Bool :=
  A.rowAdj.map fun nb =>
    nb.foldl (fun parity c => if v.getD c false then !parity else parity) false

def xorBits (a b : List Bool) : List Bool := List.zipWith xor a b

def ErrorVector.xorE (e f : ErrorVector) : ErrorVector :=
  ⟨xorBits e.xPart f.xPart, xorBits e.zPart f.zPart⟩

def Syndrome.xorS (s t : Syndrome) : Syndrome :=
  ⟨xorBits s.zSyndrome t.zSyndrome, xorBits s.xSyndrome t.xSyndrome⟩

/-- The GF(2) entry of H_X · H_Z^T at (i, j), stated independently of the
sparse product: the parity of the number of columns shared by row i of
H_X and row j of H_Z. -/
def orthoEntryOdd (hx hz : BinarySparseMatrix) (i j : Nat) : Bool :=
  ((List.range hz.nCols).countP fun c =>
    (hx.rowAdj.getD i []).contains c && (hz.rowAdj.getD j []).contains c) % 2 = 1

/-- Orthogonality of the pair (H_X, H_Z) over GF(2). -/
def orthogonalGF2 (hx hz : BinarySparseMatrix) : Prop :=
  ∀ i < hx.nRows, ∀ j < hz.nRows, orthoEntryOdd hx hz i j = false

instance (hx hz : BinarySparseMatrix) : Decidable (orthogonalGF2 hx hz) := by
  unfold orthogonalGF2
  infer_instance

/-- The phase correction the claim attaches to a Pauli product: the
running product of Table 1 corrections across positions, starting from
the product of the two phases. -/
def pauliPhaseSpec (a b : PauliString) : Phase :=
  (List.range a.numQubits).foldl
    (fun ph i =>
      ph.mul (tableCorrection
        (kindOf (a.zPart.getD i false) (a.xPart.getD i false))
        (kindOf (b.zPart.getD i false) (b.xPart.getD i false))))
    (a.phase.mul b.phase)

/-- A leading prefix the phase parser accepts: a sign must be followed
by a Pauli character or by i, otherwise the first character must itself
be i or a Pauli character. -/
def prefixOk : List Char → Bool
  | [] => false
  | first :: rest =>
    if first = '+' || first = '-' then
      match rest with
      | [] => false
      | second :: _ => isPauliChar second || second = 'i'
    else
      first = 'i' || isPauliChar first

def isPhaseChar (c : Char) : Bool :=
  c = '+' || c = '-' || c = 'i'

/-- The set of strings the parser accepts: a valid prefix, and every
character is a phase or Pauli character (phase characters are skipped
wherever they occur). -/
def pauliAccepted (s : List Char) : Bool :=
  prefixOk s && s.all fun c => isPhaseChar c || isPauliChar c

/-! Linear-algebra view of the rank computation: rows of a sparse matrix
as vectors over GF(2) = ZMod 2. -/

/-- The GF(2) row vector of an adjacency list: 1 exactly at the listed
columns. -/
def rowVec (C : Nat) (nb : List Nat) : Fin C → ZMod 2 :=
  fun j => if (j : Nat) ∈ nb then 1 else 0

/-- The dense GF(2) matrix of a row-adjacency list. -/
def matOfRows (R C : Nat) (m : List (List Nat)) :
    Matrix (Fin R) (Fin C) (ZMod 2) :=
  Matrix.of fun i j => rowVec C (m.getD i []) j

/-- The span of the rows of a working row list, viewed in GF(2)^C with R
row slots. -/
def rowSpan (R C : Nat) (m : List (List Nat)) :
    Submodule (ZMod 2) (Fin C → ZMod 2) :=
  Submodule.span (ZMod 2) (Set.range fun i : Fin R => rowVec C (m.getD i []))

/-- Invariant of the Gaussian elimination loop in rank once the columns
below c have been processed: the working rows are well formed, their span
is the original row span, the rows from position rank on vanish on the
processed columns, and each of the first rank rows owns a pivot column
below c that no other row touches. -/
def RankInv (R C : Nat) (S : Submodule (ZMod 2) (Fin C → ZMod 2)) (c : Nat)
    (st : List (List Nat) × Nat) : Prop :=
  st.1.length = R ∧
  (∀ i : Nat, (st.1.getD i []).Pairwise (· < ·)) ∧
  (∀ i : Nat, ∀ x ∈ st.1.getD i [], x < C) ∧
  st.2 ≤ R ∧
  rowSpan R C st.1 = S ∧
  (∀ i : Nat, st.2 ≤ i → ∀ x ∈ st.1.getD i [], c ≤ x) ∧
  ∃ pcols : Fin st.2 → Nat,
    (∀ j, pcols j < c) ∧
    (∀ j : Fin st.2, pcols j ∈ st.1.getD (j : Nat) []) ∧
    (∀ j : Fin st.2, ∀ i : Nat, i ≠ (j : Nat) → pcols j ∉ st.1.getD i [])

/-! ## Theorems -/

/-- Helper: mulVec agrees with its total core under the length guard. -/
theorem mulVec_eq_some {A : BinarySparseMatrix} {v : List Bool}
    (h : A.nCols = v.length) : A.mulVec v = some (mulVecBits A v) := by
  simp [BinarySparseMatrix.mulVec, mulVecBits, h]

/-- C1: BpDecoderCss::new builds decoder_X on H_X with every per-bit
channel probability z_error_rate() + y_error_rate() and decoder_Z on H_Z
with every per-bit probability x_error_rate() + y_error_rate(), passing
the remaining configuration through unchanged; and decode runs decoder_Z
on the Z syndrome to produce the X part of the error and decoder_X on
the X syndrome to produce the Z part, returning that error pattern. -/
theorem bpDecoderCss_new_decode_c1 (code : CssCode) (ch : ChannelRates)
    (bpMethod : BpMethod) (schedule : BpSchedule) (maxIterations : Nat)
    (msScalingFactor : ℝ) (randomSerialSchedule : Bool) :
    (BpDecoderCss.new code ch bpMethod schedule maxIterations msScalingFactor
        randomSerialSchedule).decoderX =
      BpDecoder.fromPcm code.hx bpMethod schedule maxIterations msScalingFactor
        randomSerialSchedule
        (List.replicate code.numQubits (ch.zErrorRate + ch.yErrorRate)) ∧
    (BpDecoderCss.new code ch bpMethod schedule maxIterations msScalingFactor
        randomSerialSchedule).decoderZ =
      BpDecoder.fromPcm code.hz bpMethod schedule maxIterations msScalingFactor
        randomSerialSchedule
        (List.replicate code.numQubits (ch.xErrorRate + ch.yErrorRate)) ∧
    ∀ syndrome : Syndrome,
      (BpDecoderCss.new code ch bpMethod schedule maxIterations msScalingFactor
          randomSerialSchedule).decode syndrome =
        ErrorVector.fromU8vec
          ((BpDecoderCss.new code ch bpMethod schedule maxIterations msScalingFactor
              randomSerialSchedule).decoderZ.decode (toU8 syndrome.zSyndrome)).decoding
          ((BpDecoderCss.new code ch bpMethod schedule maxIterations msScalingFactor
              randomSerialSchedule).decoderX.decode (toU8 syndrome.xSyndrome)).decoding := by
  refine ⟨rfl, rfl, fun syndrome => rfl⟩

theorem getD_xorBits {a b : List Bool} (h : a.length = b.length) (c : Nat) :
    (xorBits a b).getD c false = xor (a.getD c false) (b.getD c false) := by
  induction a generalizing b c with
  | nil =>
    have : b = [] := by
      cases b with
      | nil => rfl
      | cons y ys => simp at h
    subst this
    simp [xorBits]
  | cons x xs ih =>
    cases b with
    | nil => simp at h
    | cons y ys =>
      cases c with
      | zero => simp [xorBits]
      | succ c =>
        have hl : xs.length = ys.length := by simpa using h
        simpa [xorBits] using ih hl c

theorem foldParity_xorBits (nb : List Nat) {a b : List Bool}
    (h : a.length = b.length) (p q : Bool) :
    nb.foldl (fun parity c => if (xorBits a b).getD c false then !parity else parity)
        (xor p q) =
      xor (nb.foldl (fun parity c => if a.getD c false then !parity else parity) p)
        (nb.foldl (fun parity c => if b.getD c false then !parity else parity) q) := by
  induction nb generalizing p q with
  | nil => rfl
  | cons c nb ih =>
    have hstep :
        (if (xorBits a b).getD c false then !(xor p q) else xor p q) =
          xor (if a.getD c false then !p else p) (if b.getD c false then !q else q) := by
      rw [getD_xorBits h]
      cases a.getD c false <;> cases b.getD c false <;> cases p <;> cases q <;> rfl
    simp only [List.foldl_cons]
    rw [hstep, ih]

theorem mulVecBits_xorBits (A : BinarySparseMatrix) {a b : List Bool}
    (h : a.length = b.length) :
    mulVecBits A (xorBits a b) = xorBits (mulVecBits A a) (mulVecBits A b) := by
  unfold mulVecBits xorBits
  rw [List.zipWith_map_left, List.zipWith_map_right, List.zipWith_same]
  refine List.map_congr_left fun nb _ => ?_
  simpa using foldParity_xorBits nb h false false

/-- C2: on a CSS code with column count n, the syndrome of an error
pattern of length n is the pair (H_Z · x_bits, H_X · z_bits) over GF(2),
and the syndrome map is linear: the syndrome of the componentwise XOR of
two error patterns is the componentwise XOR of their syndromes. -/
theorem cssCode_syndrome_c2 (c : CssCode) (n : Nat)
    (hzc : c.hz.nCols = n) (hxc : c.hx.nCols = n) (e f : ErrorVector)
    (hex : e.xPart.length = n) (hez : e.zPart.length = n)
    (hfx : f.xPart.length = n) (hfz : f.zPart.length = n) :
    c.syndrome e = some ⟨mulVecBits c.hz e.xPart, mulVecBits c.hx e.zPart⟩ ∧
    c.syndrome (e.xorE f) =
      some (Syndrome.xorS ⟨mulVecBits c.hz e.xPart, mulVecBits c.hx e.zPart⟩
        ⟨mulVecBits c.hz f.xPart, mulVecBits c.hx f.zPart⟩) := by
  have hx' : (xorBits e.xPart f.xPart).length = n := by
    simp [xorBits, hex, hfx]
  have hz' : (xorBits e.zPart f.zPart).length = n := by
    simp [xorBits, hez, hfz]
  constructor
  · unfold CssCode.syndrome
    rw [mulVec_eq_some (by rw [hzc, hex]), mulVec_eq_some (by rw [hxc, hez])]
    rfl
  · unfold CssCode.syndrome ErrorVector.xorE
    rw [mulVec_eq_some (by rw [hzc]; exact hx'.symm),
      mulVec_eq_some (by rw [hxc]; exact hz'.symm)]
    simp only [Option.bind_eq_bind, Option.some_bind]
    rw [mulVecBits_xorBits c.hz (by rw [hex, hfx]),
      mulVecBits_xorBits c.hx (by rw [hez, hfz])]
    rfl

/-- C2 witness: the Shor-code matrices at a concrete pair of error
patterns. -/
theorem cssCode_syndrome_c2_witness :
    let hz : BinarySparseMatrix :=
      ⟨6, 9, [[0, 1], [1, 2], [3, 4], [4, 5], [6, 7], [7, 8]],
        [[0], [0, 1], [1], [2], [2, 3], [3], [4], [4, 5], [5]]⟩
    let hx : BinarySparseMatrix :=
      ⟨2, 9, [[0, 1, 2, 3, 4, 5], [3, 4, 5, 6, 7, 8]],
        [[0], [0], [0], [0, 1], [0, 1], [0, 1], [1], [1], [1]]⟩
    let c : CssCode := ⟨hz, hx⟩
    let e : ErrorVector :=
      ⟨[true, false, false, false, false, false, false, false, false],
        [false, true, false, false, false, false, false, false, false]⟩
    let f : ErrorVector :=
      ⟨[false, true, false, false, false, false, false, false, false],
        [false, true, true, false, false, false, false, false, false]⟩
    c.syndrome e = some ⟨mulVecBits c.hz e.xPart, mulVecBits c.hx e.zPart⟩ ∧
      c.syndrome (e.xorE f) =
        some (Syndrome.xorS ⟨mulVecBits c.hz e.xPart, mulVecBits c.hx e.zPart⟩
          ⟨mulVecBits c.hz f.xPart, mulVecBits c.hx f.zPart⟩) :=
  cssCode_syndrome_c2 _ 9 (by decide) (by decide) _ _ (by decide) (by decide)
    (by decide) (by decide)

theorem mulPhaseStep_eq_table (ph : Phase) (az ax bz bx : Bool) :
    mulPhaseStep ph az ax bz bx = ph.mul (tableCorrection (kindOf az ax) (kindOf bz bx)) := by
  cases ph <;> cases az <;> cases ax <;> cases bz <;> cases bx <;> rfl

theorem mulFold_spec (a b : PauliString) (L : List Nat) (ph : Phase)
    (zs xs : List Bool) :
    L.foldl (mulStep a b) (ph, zs, xs) =
      (L.foldl (fun q i =>
          q.mul (tableCorrection
            (kindOf (a.zPart.getD i false) (a.xPart.getD i false))
            (kindOf (b.zPart.getD i false) (b.xPart.getD i false)))) ph,
        zs ++ L.map (fun i => xor (a.zPart.getD i false) (b.zPart.getD i false)),
        xs ++ L.map (fun i => xor (a.xPart.getD i false) (b.xPart.getD i false))) := by
  induction L generalizing ph zs xs with
  | nil => simp
  | cons i L ih =>
    simp only [List.foldl_cons, List.map_cons, mulStep, mulPhaseStep_eq_table]
    rw [ih]
    simp

theorem range_map_getD_xor {u v : List Bool} {n : Nat}
    (hu : u.length = n) (hv : v.length = n) :
    (List.range n).map (fun i => xor (u.getD i false) (v.getD i false)) =
      List.zipWith xor u v := by
  apply List.ext_getElem
  · simp [hu, hv]
  · intro i h1 h2
    have hi : i < n := by simpa using h1
    have hgu : u[i]? = some u[i] := List.getElem?_eq_getElem (hu ▸ hi)
    have hgv : v[i]? = some v[i] := List.getElem?_eq_getElem (hv ▸ hi)
    simp [List.getD, hgu, hgv]

/-- C6: the product of two Pauli operators on the same number of qubits
XORs the z and x bit vectors componentwise and multiplies the phases
together with the running per-position correction of Table 1; in
particular (+XZIY) · (−iYZXI) = +ZIXY and (+XZIY) · (IIXI) = +XZXY. -/
theorem pauliString_mul_c6 :
    (∀ a b : PauliString,
      a.zPart.length = a.numQubits → a.xPart.length = a.numQubits →
      b.zPart.length = b.numQubits → b.xPart.length = b.numQubits →
      a.numQubits = b.numQubits →
      a.mul b = some ⟨a.numQubits, pauliPhaseSpec a b,
        List.zipWith xor a.zPart b.zPart, List.zipWith xor a.xPart b.xPart⟩) ∧
    ((PauliString.fromChars (['+', 'X', 'Z', 'I', 'Y'])).bind fun a =>
        (PauliString.fromChars (['-', 'i', 'Y', 'Z', 'X', 'I'])).bind fun b =>
          a.mul b) =
      PauliString.fromChars (['+', 'Z', 'I', 'X', 'Y']) ∧
    ((PauliString.fromChars (['+', 'X', 'Z', 'I', 'Y'])).bind fun a =>
        (PauliString.fromChars (['I', 'I', 'X', 'I'])).bind fun b =>
          a.mul b) =
      PauliString.fromChars (['+', 'X', 'Z', 'X', 'Y']) := by
  refine ⟨fun a b haz hax hbz hbx hn => ?_, by decide, by decide⟩
  unfold PauliString.mul
  rw [if_pos hn, mulFold_spec]
  simp only [List.nil_append]
  rw [range_map_getD_xor haz (hn ▸ hbz), range_map_getD_xor hax (hn ▸ hbx)]
  unfold PauliString.new pauliPhaseSpec
  rw [if_pos]
  constructor <;> simp [List.length_zipWith, haz, hax, hbz, hbx, hn]

/-- C6 witness: the general product formula applied to the two Paulis of
scenario S5. -/
theorem pauliString_mul_c6_witness :
    (⟨4, Phase.One, [false, true, false, true],
        [true, false, false, true]⟩ : PauliString).mul
      ⟨4, Phase.MinusI, [true, true, false, false], [true, false, true, false]⟩ =
      some ⟨4,
        pauliPhaseSpec
          ⟨4, Phase.One, [false, true, false, true], [true, false, false, true]⟩
          ⟨4, Phase.MinusI, [true, true, false, false], [true, false, true, false]⟩,
        List.zipWith xor [false, true, false, true] [true, true, false, false],
        List.zipWith xor [true, false, false, true] [true, false, true, false]⟩ :=
  pauliString_mul_c6.1 _ _ (by decide) (by decide) (by decide) (by decide) (by decide)


theorem charStep_isSome (c : Char) :
    (charStep c).isSome = (isPhaseChar c || isPauliChar c) := by
  unfold charStep isPhaseChar isPauliChar
  by_cases h1 : c = '+' || c = '-' || c = 'i'
  · simp [h1]
  · rw [if_neg (by simpa using h1)]
    rw [Bool.eq_false_iff.mpr (fun hcon => h1 hcon)]
    by_cases hI : c = 'I'
    · simp [hI]
    · rw [if_neg hI]
      by_cases hX : c = 'X'
      · simp [hI, hX]
      · rw [if_neg hX]
        by_cases hY : c = 'Y'
        · simp [hI, hX, hY]
        · rw [if_neg hY]
          by_cases hZ : c = 'Z'
          · simp [hI, hX, hY, hZ]
          · rw [if_neg hZ]
            simp [hI, hX, hY, hZ]

theorem charStep_skip_iff (c : Char) :
    charStep c = some none ↔ isPhaseChar c = true := by
  unfold charStep isPhaseChar
  by_cases h1 : c = '+' || c = '-' || c = 'i'
  · simp [h1]
  · rw [if_neg (by simpa using h1)]
    constructor
    · intro h
      by_cases hI : c = 'I'
      · rw [if_pos hI] at h; cases h
      · rw [if_neg hI] at h
        by_cases hX : c = 'X'
        · rw [if_pos hX] at h; cases h
        · rw [if_neg hX] at h
          by_cases hY : c = 'Y'
          · rw [if_pos hY] at h; cases h
          · rw [if_neg hY] at h
            by_cases hZ : c = 'Z'
            · rw [if_pos hZ] at h; cases h
            · rw [if_neg hZ] at h; cases h
    · intro h
      exact absurd h (by simpa using h1)

theorem charStep_push_pauli {c : Char} {d : Bool × Bool}
    (h : charStep c = some (some d)) : isPauliChar c = true := by
  unfold charStep at h
  by_cases h1 : c = '+' || c = '-' || c = 'i'
  · rw [if_pos h1] at h; cases h
  · rw [if_neg h1] at h
    by_cases hI : c = 'I'
    · simp [isPauliChar, hI]
    · rw [if_neg hI] at h
      by_cases hX : c = 'X'
      · simp [isPauliChar, hX]
      · rw [if_neg hX] at h
        by_cases hY : c = 'Y'
        · simp [isPauliChar, hY]
        · rw [if_neg hY] at h
          by_cases hZ : c = 'Z'
          · simp [isPauliChar, hZ]
          · rw [if_neg hZ] at h; cases h

theorem parsePauliBits_isSome (s : List Char) :
    (parsePauliBits s).isSome = s.all fun c => isPhaseChar c || isPauliChar c := by
  induction s with
  | nil => rfl
  | cons c rest ih =>
    rw [List.all_cons, ← ih, ← charStep_isSome c]
    cases hb : parsePauliBits rest with
    | none => simp [parsePauliBits, hb]
    | some zx =>
      cases hc : charStep c with
      | none => simp [parsePauliBits, hb, hc]
      | some d => cases d <;> simp [parsePauliBits, hb, hc]

theorem parsePauliBits_lengths :
    ∀ (s : List Char) (zx : List Bool × List Bool), parsePauliBits s = some zx →
      zx.1.length = s.countP isPauliChar ∧ zx.2.length = s.countP isPauliChar := by
  intro s
  induction s with
  | nil =>
    intro zx h
    cases h
    simp
  | cons c rest ih =>
    intro zx h
    simp only [parsePauliBits] at h
    cases hb : parsePauliBits rest with
    | none => rw [hb] at h; cases h
    | some zx0 =>
      simp only [hb, Option.bind_eq_bind, Option.some_bind] at h
      obtain ⟨h1, h2⟩ := ih zx0 hb
      cases hc : charStep c with
      | none => rw [hc] at h; cases h
      | some act =>
        rw [hc] at h
        cases act with
        | none =>
          cases h
          have hskip : isPauliChar c = false := by
            have := (charStep_skip_iff c).mp hc
            unfold isPhaseChar at this
            unfold isPauliChar
            rcases Bool.or_eq_true_iff.mp this with h | h
            · rcases Bool.or_eq_true_iff.mp h with h | h <;>
                · have := of_decide_eq_true h
                  subst this
                  rfl
            · have := of_decide_eq_true h
              subst this
              rfl
          simp [List.countP_cons, hskip, h1, h2]
        | some d =>
          cases h
          have hp := charStep_push_pauli hc
          simp [List.countP_cons, hp, h1, h2]

theorem parsePhase_isSome (s : List Char) : (parsePhase s).isSome = prefixOk s := by
  cases s with
  | nil => rfl
  | cons first rest =>
    show (parsePhase (first :: rest)).isSome = prefixOk (first :: rest)
    simp only [parsePhase, prefixOk]
    by_cases hp : first = '+'
    · rw [if_pos hp, if_pos (by simp [hp])]
      cases rest with
      | nil => rfl
      | cons second t =>
        by_cases h1 : isPauliChar second
        · simp [h1]
        · by_cases h2 : second = 'i'
          · subst h2
            simp [isPauliChar]
          · simp [h1, h2]
    · rw [if_neg hp]
      by_cases hm : first = '-'
      · rw [if_pos hm, if_pos (by simp [hm])]
        cases rest with
        | nil => rfl
        | cons second t =>
          by_cases h1 : isPauliChar second
          · simp [h1]
          · by_cases h2 : second = 'i'
            · subst h2
              simp [isPauliChar]
            · simp [h1, h2]
      · rw [if_neg hm]
        have hsign : (decide (first = '+') || decide (first = '-')) = false := by
          simp [hp, hm]
        rw [hsign]
        simp only [Bool.false_eq_true, if_false]
        by_cases hi : first = 'i'
        · simp [hi]
        · rw [if_neg hi]
          by_cases hP : isPauliChar first <;> simp [hi, hP]

theorem pauliString_fromChars_phase {s : List Char} {p : PauliString}
    (h : PauliString.fromChars s = some p) :
    parsePhase s = some p.phase ∧ ∃ zx, parsePauliBits s = some zx ∧
      p = ⟨zx.1.length, p.phase, zx.1, zx.2⟩ := by
  unfold PauliString.fromChars at h
  cases hp : parsePhase s with
  | none => rw [hp] at h; cases h
  | some ph =>
    rw [hp] at h
    cases hb : parsePauliBits s with
    | none => rw [hb] at h; cases h
    | some zx =>
      rw [hb] at h
      simp only [Option.bind_eq_bind, Option.some_bind] at h
      unfold PauliString.new at h
      obtain ⟨hl1, hl2⟩ := parsePauliBits_lengths s zx hb
      rw [if_pos ⟨rfl, by rw [hl1, hl2]⟩] at h
      injection h with h
      subst h
      exact ⟨rfl, zx, rfl, rfl⟩

theorem pauli_not_phase {c : Char} (h : isPauliChar c = true) :
    isPhaseChar c = false := by
  unfold isPauliChar at h
  rcases Bool.or_eq_true_iff.mp h with h | h
  · rcases Bool.or_eq_true_iff.mp h with h | h
    · rcases Bool.or_eq_true_iff.mp h with h | h <;>
        · have := of_decide_eq_true h
          subst this
          rfl
    · have := of_decide_eq_true h
      subst this
      rfl
  · have := of_decide_eq_true h
    subst this
    rfl

/-- C7 (amended): the parser accepts exactly the nonempty strings whose
characters are all drawn from the phase characters +, -, i and the Pauli
characters I, X, Y, Z, with a leading sign followed by a Pauli character
or i; phase characters are skipped wherever they occur, so a prefix
character appearing after the operator characters begin does not make
parsing fail.  The prefix determines the phase as the claim's table
states, and the qubit count is the number of Pauli characters. -/
theorem pauliString_fromChars_c7 :
    (∀ s : List Char, (PauliString.fromChars s).isSome = pauliAccepted s) ∧
    (∀ (s : List Char) (p : PauliString), PauliString.fromChars s = some p →
      p.numQubits = s.countP isPauliChar ∧ parsePhase s = some p.phase) ∧
    (∀ (second : Char) (t : List Char), isPauliChar second = true →
      parsePhase ('+' :: second :: t) = some Phase.One) ∧
    (∀ t : List Char, parsePhase ('+' :: 'i' :: t) = some Phase.I) ∧
    (∀ (second : Char) (t : List Char), isPauliChar second = true →
      parsePhase ('-' :: second :: t) = some Phase.MinusOne) ∧
    (∀ t : List Char, parsePhase ('-' :: 'i' :: t) = some Phase.MinusI) ∧
    (∀ t : List Char, parsePhase ('i' :: t) = some Phase.I) ∧
    (∀ (first : Char) (t : List Char), isPauliChar first = true →
      parsePhase (first :: t) = some Phase.One) := by
  refine ⟨?_, ?_, ?_, ?_, ?_, ?_, ?_, ?_⟩
  · intro s
    unfold pauliAccepted
    rw [← parsePhase_isSome, ← parsePauliBits_isSome]
    unfold PauliString.fromChars
    cases hp : parsePhase s with
    | none => simp
    | some ph =>
      cases hb : parsePauliBits s with
      | none => simp
      | some zx =>
        obtain ⟨hl1, hl2⟩ := parsePauliBits_lengths s zx hb
        simp only [Option.bind_eq_bind, Option.some_bind, Option.isSome_some,
          Bool.true_and]
        unfold PauliString.new
        rw [if_pos ⟨rfl, by rw [hl1, hl2]⟩]
        rfl
  · intro s p h
    obtain ⟨hp, zx, hb, hpeq⟩ := pauliString_fromChars_phase h
    obtain ⟨hl1, _⟩ := parsePauliBits_lengths s zx hb
    refine ⟨?_, hp⟩
    rw [hpeq]
    exact hl1
  · intro second t h
    simp only [parsePhase]
    simp [h]
  · intro t
    rfl
  · intro second t h
    simp only [parsePhase]
    simp [h, pauli_not_phase h]
  · intro t
    rfl
  · intro t
    rfl
  · intro first t h
    have hnp := pauli_not_phase h
    unfold isPhaseChar at hnp
    simp only [Bool.or_eq_false_iff, decide_eq_false_iff_not] at hnp
    simp only [parsePhase]
    rw [if_neg hnp.1.1, if_neg hnp.1.2, if_neg hnp.2, if_pos h]

/-- C7 counterexample: "X+Z" parses successfully (to XZ with phase +1),
although the claim says a prefix character after the operator characters
begin must make parsing fail. -/
theorem pauliString_fromChars_c7_counterexample :
    PauliString.fromChars (['X', '+', 'Z']) =
      some ⟨2, Phase.One, [false, true], [true, false]⟩ := by decide

/-- C7 witness: the amended characterization applied to "+XZ". -/
theorem pauliString_fromChars_c7_witness :
    isPauliChar 'X' = true ∧ parsePhase (['+', 'X', 'Z']) = some Phase.One ∧
      (PauliString.fromChars (['+', 'X', 'Z'])).isSome =
        pauliAccepted (['+', 'X', 'Z']) :=
  ⟨by decide, pauliString_fromChars_c7.2.2.1 'X' ['Z'] (by decide),
    pauliString_fromChars_c7.1 _⟩

theorem getD_set_self {l : List (List Nat)} {i : Nat} (h : i < l.length)
    (x : List Nat) : (l.set i x).getD i [] = x := by
  simp [List.getD, List.getElem?_set_self', List.getElem?_eq_getElem h]

theorem getD_set_ne {l : List (List Nat)} {i j : Nat} (h : i ≠ j) (x : List Nat) :
    (l.set i x).getD j [] = l.getD j [] := by
  simp [List.getD, List.getElem?_set_ne h]

theorem adjPush_some {adj : List (List Nat)} {i v : Nat} {a : List (List Nat)} :
    adjPush adj i v = some a ↔
      i < adj.length ∧ a = adj.set i (adj.getD i [] ++ [v]) := by
  unfold adjPush
  cases hg : adj.get? i with
  | none =>
    have : adj.length ≤ i := by
      simpa [List.get?_eq_getElem?] using List.getElem?_eq_none_iff.mp (by
        simpa [List.get?_eq_getElem?] using hg)
    simp only
    constructor
    · intro h; cases h
    · intro ⟨h1, _⟩; omega
  | some l =>
    have hlt : i < adj.length := by
      by_contra hcon
      rw [List.get?_eq_getElem?, List.getElem?_eq_none_iff.mpr (by omega)] at hg
      cases hg
    have hval : adj.getD i [] = l := by
      simp [List.getD, ← List.get?_eq_getElem?, hg]
    simp only
    constructor
    · intro h
      injection h with h
      exact ⟨hlt, by rw [hval, h]⟩
    · intro ⟨_, h2⟩
      rw [h2, hval]

theorem innerFold_some (oi : Nat) :
    ∀ (nb : List Nat) (adj res : List (List Nat)),
      nb.foldlM (fun a t => adjPush a t oi) adj = some res →
      res.length = adj.length ∧
        ∀ t, res.getD t [] = adj.getD t [] ++ List.replicate (nb.count t) oi := by
  intro nb
  induction nb with
  | nil =>
    intro adj res h
    injection h with h
    subst h
    simp
  | cons t0 rest ih =>
    intro adj res h
    simp only [List.foldlM_cons] at h
    cases hp : adjPush adj t0 oi with
    | none => rw [hp] at h; cases h
    | some a0 =>
      rw [hp] at h
      simp only [Option.bind_eq_bind, Option.some_bind] at h
      obtain ⟨hlen, hget⟩ := ih a0 res h
      obtain ⟨hi, ha0⟩ := adjPush_some.mp hp
      subst ha0
      refine ⟨by rw [hlen, List.length_set], fun t => ?_⟩
      rw [hget t]
      by_cases ht : t = t0
      · subst ht
        rw [getD_set_self hi, List.count_cons_self, List.append_assoc,
          List.replicate_succ]
        rfl
      · rw [getD_set_ne (fun hcon => ht hcon.symm)]
        rw [List.count_cons_of_ne (fun hcon => ht (by simpa using hcon))]

theorem innerFold_isSome (oi : Nat) :
    ∀ (nb : List Nat) (adj : List (List Nat)),
      (nb.foldlM (fun a t => adjPush a t oi) adj).isSome =
        nb.all fun t => t < adj.length := by
  intro nb
  induction nb with
  | nil => intro adj; rfl
  | cons t0 rest ih =>
    intro adj
    simp only [List.foldlM_cons, List.all_cons]
    cases hp : adjPush adj t0 oi with
    | none =>
      have hno : ¬ t0 < adj.length := by
        intro hcon
        have h2 : adjPush adj t0 oi =
            some (adj.set t0 (adj.getD t0 [] ++ [oi])) :=
          adjPush_some.mpr ⟨hcon, rfl⟩
        rw [hp] at h2
        cases h2
      simp [hno]
    | some a0 =>
      obtain ⟨hi, ha0⟩ := adjPush_some.mp hp
      have hlen : a0.length = adj.length := by rw [ha0, List.length_set]
      simp only [Option.bind_eq_bind, Option.some_bind]
      rw [ih a0, hlen]
      simp [hi]

theorem outerFold_some :
    ∀ (pairs : List (Nat × List Nat)) (adj res : List (List Nat)),
      pairs.foldlM (fun a p => p.2.foldlM (fun a t => adjPush a t p.1) a) adj =
        some res →
      res.length = adj.length ∧
        ∀ t, res.getD t [] = adj.getD t [] ++
          (pairs.map fun p => List.replicate (p.2.count t) p.1).flatten := by
  intro pairs
  induction pairs with
  | nil =>
    intro adj res h
    injection h with h
    subst h
    simp
  | cons p pairs ih =>
    intro adj res h
    simp only [List.foldlM_cons] at h
    cases hp : p.2.foldlM (fun a t => adjPush a t p.1) adj with
    | none => rw [hp] at h; cases h
    | some a0 =>
      rw [hp] at h
      simp only [Option.bind_eq_bind, Option.some_bind] at h
      obtain ⟨hlen0, hget0⟩ := innerFold_some p.1 p.2 adj a0 hp
      obtain ⟨hlen, hget⟩ := ih a0 res h
      refine ⟨by rw [hlen, hlen0], fun t => ?_⟩
      rw [hget t, hget0 t]
      simp [List.append_assoc]

theorem outerFold_isSome :
    ∀ (pairs : List (Nat × List Nat)) (adj : List (List Nat)),
      (pairs.foldlM
          (fun (a : List (List Nat)) (p : Nat × List Nat) =>
            p.2.foldlM (fun a t => adjPush a t p.1) a)
          adj).isSome =
        pairs.all fun p => p.2.all fun t => t < adj.length := by
  intro pairs
  induction pairs with
  | nil => intro adj; rfl
  | cons p pairs ih =>
    intro adj
    simp only [List.foldlM_cons, List.all_cons]
    cases hp : p.2.foldlM (fun a t => adjPush a t p.1) adj with
    | none =>
      have := innerFold_isSome p.1 p.2 adj
      rw [hp] at this
      simp only [Option.isSome_none] at this
      rw [← this]
      simp
    | some a0 =>
      obtain ⟨hlen0, _⟩ := innerFold_some p.1 p.2 adj a0 hp
      have h1 := innerFold_isSome p.1 p.2 adj
      rw [hp] at h1
      simp only [Option.isSome_some] at h1
      simp only [Option.bind_eq_bind, Option.some_bind]
      rw [ih a0, hlen0, ← h1]
      simp

theorem getD_replicate_nil (n t : Nat) :
    (List.replicate n ([] : List Nat)).getD t [] = [] := by
  rcases lt_or_ge t n with h | h
  · simp [List.getD, List.getElem?_replicate, h]
  · have : (List.replicate n ([] : List Nat)).length ≤ t := by
      simpa using h
    simp [List.getD, List.getElem?_eq_none_iff.mpr this]

theorem buildDerived_spec {n : Nat} {outer res : List (List Nat)}
    (h : buildDerived (List.replicate n []) outer = some res) :
    res.length = n ∧
      ∀ t, res.getD t [] =
        (outer.enum.map fun p => List.replicate (p.2.count t) p.1).flatten := by
  unfold buildDerived at h
  obtain ⟨hlen, hget⟩ := outerFold_some outer.enum (List.replicate n []) res h
  refine ⟨by rw [hlen, List.length_replicate], fun t => ?_⟩
  rw [hget t, getD_replicate_nil, List.nil_append]

theorem buildDerived_isSome {n : Nat} {outer : List (List Nat)} :
    (buildDerived (List.replicate n []) outer).isSome = true ↔
      ∀ nb ∈ outer, ∀ t ∈ nb, t < n := by
  unfold buildDerived
  rw [outerFold_isSome outer.enum (List.replicate n [])]
  simp only [List.length_replicate, List.all_eq_true, decide_eq_true_eq]
  constructor
  · intro h nb hnb t ht
    obtain ⟨k, hk⟩ := List.mem_iff_get?.mp hnb
    exact h _ (List.mk_mem_enum_iff_get?.mpr hk) t ht
  · intro h p hp t ht
    have : outer.get? p.1 = some p.2 := List.mem_enum_iff_get?.mp hp
    exact h p.2 (List.get?_mem this) t ht

theorem buildDerived_mem {n : Nat} {outer res : List (List Nat)}
    (h : buildDerived (List.replicate n []) outer = some res) (x t : Nat) :
    x ∈ res.getD t [] ↔ ∃ nb, outer.get? x = some nb ∧ t ∈ nb := by
  obtain ⟨-, hget⟩ := buildDerived_spec h
  rw [hget t]
  rw [List.mem_flatten]
  constructor
  · rintro ⟨l, hl, hx⟩
    rw [List.mem_map] at hl
    obtain ⟨p, hp, rfl⟩ := hl
    rw [List.mem_replicate] at hx
    obtain ⟨hcnt, rfl⟩ := hx
    refine ⟨p.2, List.mem_enum_iff_get?.mp hp, ?_⟩
    exact List.count_pos_iff_mem.mp (Nat.pos_of_ne_zero hcnt)
  · rintro ⟨nb, hnb, ht⟩
    refine ⟨List.replicate (nb.count t) x, ?_, ?_⟩
    · rw [List.mem_map]
      exact ⟨(x, nb), List.mem_enum_iff_get?.mpr hnb, rfl⟩
    · rw [List.mem_replicate]
      exact ⟨Nat.pos_iff_ne_zero.mp (List.count_pos_iff_mem.mpr ht), rfl⟩

theorem contains_eq_decide_mem (l : List Nat) (a : Nat) :
    l.contains a = decide (a ∈ l) := by
  simp [List.contains]

theorem getD_eq_getElem_of_lt {l : List (List Nat)} {i : Nat} (h : i < l.length) :
    l.getD i [] = l[i] := by
  simp [List.getD, List.getElem?_eq_getElem h]

theorem mem_getD_iff_get? {l : List (List Nat)} {i x : Nat} :
    x ∈ l.getD i [] ↔ ∃ nb, l.get? i = some nb ∧ x ∈ nb := by
  rcases lt_or_ge i l.length with h | h
  · rw [getD_eq_getElem_of_lt h]
    constructor
    · intro hx
      exact ⟨l[i], by simp [List.get?_eq_getElem?, List.getElem?_eq_getElem h], hx⟩
    · rintro ⟨nb, hnb, hx⟩
      rw [List.get?_eq_getElem?, List.getElem?_eq_getElem h] at hnb
      injection hnb with hnb
      rw [← hnb] at hx
      exact hx
  · have h2 : l[i]? = none := List.getElem?_eq_none_iff.mpr h
    simp [List.getD, List.get?_eq_getElem?, h2]

/-- Mutual consistency of a matrix built by deriving the column lists
from the row lists. -/
theorem derived_consistent {nR nC : Nat} {rows ca : List (List Nat)}
    (hb : buildDerived (List.replicate nC []) rows = some ca)
    (hlr : rows.length = nR) :
    consistentB ⟨nR, nC, rows, ca⟩ = true := by
  obtain ⟨hlen, -⟩ := buildDerived_spec hb
  have hrange : ∀ nb ∈ rows, ∀ t ∈ nb, t < nC := by
    rw [← buildDerived_isSome]
    rw [hb]
    rfl
  have hmem : ∀ i j, j ∈ rows.getD i [] ↔ i ∈ ca.getD j [] := by
    intro i j
    rw [buildDerived_mem hb i j, mem_getD_iff_get?]
  unfold consistentB
  simp only [Bool.and_eq_true, beq_iff_eq, List.all_eq_true, decide_eq_true_eq]
  refine ⟨⟨⟨⟨hlr, hlen⟩, ?_⟩, ?_⟩, ?_⟩
  · intro i _ j _
    rw [contains_eq_decide_mem, contains_eq_decide_mem]
    have := hmem i j
    by_cases h : j ∈ rows.getD i []
    · rw [decide_eq_true h, decide_eq_true (this.mp h)]
    · rw [decide_eq_false h, decide_eq_false (fun hc => h (this.mpr hc))]
  · intro nb hnb c hc
    exact hrange nb hnb c hc
  · intro nb hnb r hr
    obtain ⟨j, hj⟩ := List.mem_iff_get?.mp hnb
    have : r ∈ ca.getD j [] := mem_getD_iff_get?.mpr ⟨nb, hj, hr⟩
    obtain ⟨nb0, hnb0, -⟩ := (buildDerived_mem hb r j).mp this
    have : r < rows.length := by
      by_contra hcon
      rw [List.get?_eq_getElem?, List.getElem?_eq_none_iff.mpr (by omega)] at hnb0
      cases hnb0
    omega

theorem newCheck_of_new {nR nC : Nat} {ra ca : List (List Nat)}
    {A : BinarySparseMatrix} (h : BinarySparseMatrix.new nR nC ra ca = some A) :
    A = ⟨nR, nC, ra, ca⟩ ∧ newCheck nR nC ra ca = true := by
  unfold BinarySparseMatrix.new at h
  by_cases hc : newCheck nR nC ra ca
  · rw [if_pos hc] at h
    injection h with h
    exact ⟨h.symm, hc⟩
  · rw [if_neg hc] at h
    cases h

theorem fromRowAdj_parts {nR nC : Nat} {rows : List (List Nat)}
    {A : BinarySparseMatrix}
    (h : BinarySparseMatrix.fromRowAdj nR nC rows = some A) :
    ∃ ca, buildDerived (List.replicate nC []) rows = some ca ∧
      A = ⟨nR, nC, rows, ca⟩ ∧ newCheck nR nC rows ca = true := by
  unfold BinarySparseMatrix.fromRowAdj at h
  cases hb : buildDerived (List.replicate nC []) rows with
  | none => rw [hb] at h; cases h
  | some ca =>
    rw [hb] at h
    simp only [Option.bind_eq_bind, Option.some_bind] at h
    obtain ⟨h1, h2⟩ := newCheck_of_new h
    exact ⟨ca, rfl, h1, h2⟩

theorem fromColAdj_parts {nR nC : Nat} {cols : List (List Nat)}
    {A : BinarySparseMatrix}
    (h : BinarySparseMatrix.fromColAdj nR nC cols = some A) :
    ∃ ra, buildDerived (List.replicate nR []) cols = some ra ∧
      A = ⟨nR, nC, ra, cols⟩ ∧ newCheck nR nC ra cols = true := by
  unfold BinarySparseMatrix.fromColAdj at h
  cases hb : buildDerived (List.replicate nR []) cols with
  | none => rw [hb] at h; cases h
  | some ra =>
    rw [hb] at h
    simp only [Option.bind_eq_bind, Option.some_bind] at h
    obtain ⟨h1, h2⟩ := newCheck_of_new h
    exact ⟨ra, rfl, h1, h2⟩

/-- Transposed consistency: consistency of the matrix with rows derived
from given column lists. -/
theorem consistentB_swap {nR nC : Nat} {ra ca : List (List Nat)}
    (h : consistentB ⟨nC, nR, ca, ra⟩ = true) :
    consistentB ⟨nR, nC, ra, ca⟩ = true := by
  unfold consistentB at h ⊢
  simp only [Bool.and_eq_true, beq_iff_eq, List.all_eq_true, decide_eq_true_eq] at h ⊢
  obtain ⟨⟨⟨⟨h1, h2⟩, h3⟩, h4⟩, h5⟩ := h
  refine ⟨⟨⟨⟨h2, h1⟩, ?_⟩, h5⟩, h4⟩
  intro i _ j hj
  exact (h3 j hj i (by assumption)).symm

theorem enum_replicate_snd {nR : Nat} {p : Nat × List Nat}
    (hp : p ∈ (List.replicate nR ([] : List Nat)).enum) : p.2 = [] := by
  have := List.mem_enum_iff_get?.mp hp
  rcases lt_or_ge p.1 nR with h | h
  · rw [List.get?_eq_getElem?, List.getElem?_eq_getElem (by simpa using h)] at this
    injection this with this
    rw [← this]
    simp
  · rw [List.get?_eq_getElem?,
      List.getElem?_eq_none_iff.mpr (by simpa using h)] at this
    cases this

theorem zeros_eq (nR nC : Nat) :
    BinarySparseMatrix.zeros nR nC =
      some ⟨nR, nC, List.replicate nR [], List.replicate nC []⟩ := by
  unfold BinarySparseMatrix.zeros BinarySparseMatrix.new
  rw [if_pos]
  unfold newCheck
  simp only [List.length_replicate, beq_self_eq_true, Bool.true_and,
    List.all_eq_true]
  intro p hp
  rw [enum_replicate_snd hp]
  intro x hx
  cases hx

theorem foldlM_of_empty_snd {adj : List (List Nat)} :
    ∀ pairs : List (Nat × List Nat), (∀ p ∈ pairs, p.2 = ([] : List Nat)) →
      pairs.foldlM
        (fun (a : List (List Nat)) (p : Nat × List Nat) =>
          p.2.foldlM (fun a t => adjPush a t p.1) a) adj = some adj := by
  intro pairs
  induction pairs with
  | nil => intro _; rfl
  | cons p pairs ih =>
    intro h
    simp only [List.foldlM_cons, h p (by simp)]
    exact ih fun q hq => h q (by simp [hq])

theorem buildDerived_replicate_empty (nR nC : Nat) :
    buildDerived (List.replicate nC []) (List.replicate nR []) =
      some (List.replicate nC []) := by
  unfold buildDerived
  exact foldlM_of_empty_snd _ fun p hp => enum_replicate_snd hp

/-- C8 (amended): matrices built by from_row_adj, from_col_adj and zeros
satisfy full mutual adjacency consistency with all indices in range; new
validates only the row-to-column half of the condition — every column
listed in a row must be in range and carry that row in its column list —
and accepts inputs whose column lists mention rows that do not list them
back (or are out of range). -/
theorem sparse_construct_c8 :
    (∀ (nR nC : Nat) (rows : List (List Nat)) (A : BinarySparseMatrix),
      BinarySparseMatrix.fromRowAdj nR nC rows = some A → consistentB A = true) ∧
    (∀ (nR nC : Nat) (cols : List (List Nat)) (A : BinarySparseMatrix),
      BinarySparseMatrix.fromColAdj nR nC cols = some A → consistentB A = true) ∧
    (∀ (nR nC : Nat) (A : BinarySparseMatrix),
      BinarySparseMatrix.zeros nR nC = some A → consistentB A = true) ∧
    (∀ (nR nC : Nat) (ra ca : List (List Nat)) (A : BinarySparseMatrix),
      BinarySparseMatrix.new nR nC ra ca = some A →
        A = ⟨nR, nC, ra, ca⟩ ∧ halfConsistentB A = true) := by
  refine ⟨?_, ?_, ?_, ?_⟩
  · intro nR nC rows A h
    obtain ⟨ca, hb, hA, hchk⟩ := fromRowAdj_parts h
    have hlr : rows.length = nR := by
      unfold newCheck at hchk
      simp only [Bool.and_eq_true, beq_iff_eq] at hchk
      exact hchk.1.1.symm
    rw [hA]
    exact derived_consistent hb hlr
  · intro nR nC cols A h
    obtain ⟨ra, hb, hA, hchk⟩ := fromColAdj_parts h
    have hlc : cols.length = nC := by
      unfold newCheck at hchk
      simp only [Bool.and_eq_true, beq_iff_eq] at hchk
      exact hchk.1.2.symm
    rw [hA]
    exact consistentB_swap (derived_consistent hb hlc)
  · intro nR nC A h
    rw [zeros_eq] at h
    injection h with h
    subst h
    exact derived_consistent (buildDerived_replicate_empty nR nC) (by simp)
  · intro nR nC ra ca A h
    obtain ⟨hA, hchk⟩ := newCheck_of_new h
    refine ⟨hA, ?_⟩
    rw [hA]
    unfold halfConsistentB
    unfold newCheck at hchk
    simp only [Bool.and_eq_true, beq_iff_eq, List.all_eq_true,
      decide_eq_true_eq] at hchk ⊢
    obtain ⟨⟨h1, h2⟩, h3⟩ := hchk
    refine ⟨⟨h1.symm, h2.symm⟩, fun p hp c hc => ?_⟩
    obtain ⟨⟨hc1, -⟩, hc3⟩ := h3 p hp c hc
    exact ⟨hc1, hc3⟩

/-- C8 counterexample: new accepts (1, 1, [[]], [[0]]), whose column
list records an incidence the row list does not have, so the claim that
new fails on every inconsistent input is false. -/
theorem sparse_new_c8_counterexample :
    (BinarySparseMatrix.new 1 1 ([[]]) ([[0]])).isSome = true ∧
      consistentB ⟨1, 1, [[]], [[0]]⟩ = false := by decide

/-- C8 witness: the amended theorem applied to a concrete from_row_adj
construction. -/
theorem sparse_construct_c8_witness :
    BinarySparseMatrix.fromRowAdj 2 3 ([[0, 1], [2]]) =
      some ⟨2, 3, [[0, 1], [2]], [[0], [0], [1]]⟩ ∧
      consistentB ⟨2, 3, [[0, 1], [2]], [[0], [0], [1]]⟩ = true :=
  ⟨by decide, sparse_construct_c8.1 2 3 [[0, 1], [2]] _ (by decide)⟩

/-- C10: Paulis::new(n, phase, z, x) hands its z argument to the x_part
parameter of BinarySymplecticVector::new and its x argument to the z_part
parameter, so every Pauli built through Paulis::new or the string parser
stores its Z bits in the x_part field and its X bits in the z_part field;
the commutes test is unaffected because the symplectic product is
symmetric under exchanging the two fields of both operands. -/
theorem paulis_swap_c10 :
    (∀ (n : Nat) (ph : Phase) (z x : List Bool), n = z.length → n = x.length →
      Paulis.new n ph z x = some ⟨n, ph, ⟨z, x⟩⟩ ∧
        (⟨z, x⟩ : BinarySymplecticVector).xPart = z ∧
        (⟨z, x⟩ : BinarySymplecticVector).zPart = x) ∧
    (∀ (s : List Char) (p : Paulis), Paulis.fromChars s = some p →
      ∃ zx, parsePauliBits s = some zx ∧
        p.binarySymplecticVector.xPart = zx.1 ∧
        p.binarySymplecticVector.zPart = zx.2) ∧
    (∀ az ax bz bx : List Bool, az.length = ax.length → bz.length = bx.length →
      BinarySymplecticVector.symplecticProduct ⟨az, ax⟩ ⟨bz, bx⟩ =
        BinarySymplecticVector.symplecticProduct ⟨ax, az⟩ ⟨bx, bz⟩) := by
  refine ⟨?_, ?_, ?_⟩
  · intro n ph z x hz hx
    refine ⟨?_, rfl, rfl⟩
    unfold Paulis.new BinarySymplecticVector.new
    rw [if_pos ⟨hz, hx⟩, if_pos (by rw [← hz, ← hx])]
    rfl
  · intro s p h
    unfold Paulis.fromChars at h
    cases hp : parsePhase s with
    | none => rw [hp] at h; cases h
    | some ph =>
      rw [hp] at h
      cases hb : parsePauliBits s with
      | none => rw [hb] at h; cases h
      | some zx =>
        rw [hb] at h
        simp only [Option.bind_eq_bind, Option.some_bind] at h
        obtain ⟨hl1, hl2⟩ := parsePauliBits_lengths s zx hb
        unfold Paulis.new BinarySymplecticVector.new at h
        rw [if_pos ⟨rfl, by rw [hl1, hl2]⟩, if_pos (by rw [hl1, hl2])] at h
        simp only [Option.map_some'] at h
        injection h with h
        subst h
        exact ⟨zx, rfl, rfl, rfl⟩
  · intro az ax bz bx ha hb
    unfold BinarySymplecticVector.symplecticProduct innerProduct
    dsimp only
    by_cases h0 : ax.length = bx.length
    · have h0' : az.length = bz.length := by rw [ha, hb]; exact h0
      have hax_bz : ax.length = bz.length := h0.trans hb.symm
      have haz_bx : az.length = bx.length := ha.trans h0
      rw [if_pos h0, if_pos h0', if_pos hax_bz, if_pos haz_bx]
      simp only [Option.bind_eq_bind, Option.some_bind]
      exact congrArg some (Bool.xor_comm _ _)
    · rw [if_neg h0, if_neg fun hc => h0 (ha.symm.trans (hc.trans hb))]

/-- C10 witness: the constructor swap at a concrete Pauli. -/
theorem paulis_swap_c10_witness :
    Paulis.new 2 Phase.One [true, false] [false, false] =
      some ⟨2, Phase.One, ⟨[true, false], [false, false]⟩⟩ ∧
      (⟨[true, false], [false, false]⟩ : BinarySymplecticVector).xPart =
        [true, false] :=
  ⟨(paulis_swap_c10.1 2 Phase.One [true, false] [false, false] (by decide)
      (by decide)).1,
    (paulis_swap_c10.1 2 Phase.One [true, false] [false, false] (by decide)
      (by decide)).2.1⟩

/-- C5: the serial sum-product check update clamps the argument of
ln((1+x)/(1-x)) into [-0.9999999, 0.9999999], but the parallel
sum-product check update applies no clamp: on a degree-1 check row the
product over the other edges is empty, so the argument handed to the
logarithm is exactly 1, outside the clamped interval — the ±1 edge case
the claim says can never surface. -/
theorem bp_clamp_c5 :
    (∀ (H : BinarySparseMatrix) (syndrome : List Nat) (st : BpState) (i j : Nat),
      -0.9999999 ≤ psLnArgSerial H syndrome st i j ∧
        psLnArgSerial H syndrome st i j ≤ 0.9999999) ∧
    (∀ st : BpState,
      psLnArgParallel ⟨1, 1, [[0]], [[0]]⟩ st 0 0 = 1) ∧
    ¬ ((1 : ℝ) ≤ 0.9999999) := by
  refine ⟨fun H syndrome st i j => ?_, fun st => ?_, by norm_num⟩
  · unfold psLnArgSerial clampUnit
    constructor
    · exact le_min (le_max_right _ _) (by norm_num)
    · exact min_le_right _ _
  · unfold psLnArgParallel
    simp

theorem fromRowAdj_some_of {nR nC : Nat} {rows : List (List Nat)}
    (hlen : rows.length = nR) (hrange : ∀ nb ∈ rows, ∀ t ∈ nb, t < nC) :
    ∃ ca, BinarySparseMatrix.fromRowAdj nR nC rows = some ⟨nR, nC, rows, ca⟩ ∧
      buildDerived (List.replicate nC []) rows = some ca := by
  have hsome : (buildDerived (List.replicate nC []) rows).isSome = true :=
    buildDerived_isSome.mpr hrange
  cases hb : buildDerived (List.replicate nC []) rows with
  | none => rw [hb] at hsome; cases hsome
  | some ca =>
    refine ⟨ca, ?_, rfl⟩
    unfold BinarySparseMatrix.fromRowAdj
    rw [hb]
    simp only [Option.bind_eq_bind, Option.some_bind]
    unfold BinarySparseMatrix.new
    rw [if_pos]
    unfold newCheck
    obtain ⟨hlca, -⟩ := buildDerived_spec hb
    simp only [Bool.and_eq_true, beq_iff_eq, List.all_eq_true, decide_eq_true_eq]
    refine ⟨⟨hlen.symm, hlca.symm⟩, fun p hp c hc => ?_⟩
    have hget := List.mem_enum_iff_get?.mp hp
    have hmem : p.2 ∈ rows := List.get?_mem hget
    have hlt : p.1 < rows.length := by
      by_contra hcon
      rw [List.get?_eq_getElem?, List.getElem?_eq_none_iff.mpr (by omega)] at hget
      cases hget
    refine ⟨⟨hrange p.2 hmem c hc, by omega⟩, ?_⟩
    rw [contains_eq_decide_mem]
    exact decide_eq_true ((buildDerived_mem hb p.1 c).mpr ⟨p.2, hget, hc⟩)

theorem fromColAdj_some_of {nR nC : Nat} {cols : List (List Nat)}
    (hlen : cols.length = nC) (hrange : ∀ nb ∈ cols, ∀ t ∈ nb, t < nR) :
    ∃ ra, BinarySparseMatrix.fromColAdj nR nC cols = some ⟨nR, nC, ra, cols⟩ ∧
      buildDerived (List.replicate nR []) cols = some ra := by
  have hsome : (buildDerived (List.replicate nR []) cols).isSome = true :=
    buildDerived_isSome.mpr hrange
  cases hb : buildDerived (List.replicate nR []) cols with
  | none => rw [hb] at hsome; cases hsome
  | some ra =>
    refine ⟨ra, ?_, rfl⟩
    unfold BinarySparseMatrix.fromColAdj
    rw [hb]
    simp only [Option.bind_eq_bind, Option.some_bind]
    unfold BinarySparseMatrix.new
    rw [if_pos]
    unfold newCheck
    obtain ⟨hlra, -⟩ := buildDerived_spec hb
    simp only [Bool.and_eq_true, beq_iff_eq, List.all_eq_true, decide_eq_true_eq]
    refine ⟨⟨hlra.symm, hlen.symm⟩, fun p hp c hc => ?_⟩
    have hget := List.mem_enum_iff_get?.mp hp
    have hlt : p.1 < ra.length := by
      by_contra hcon
      rw [List.get?_eq_getElem?, List.getElem?_eq_none_iff.mpr (by omega)] at hget
      cases hget
    have hp2 : p.2 = ra.getD p.1 [] := by
      rw [List.get?_eq_getElem?] at hget
      rw [getD_eq_getElem_of_lt hlt]
      rw [List.getElem?_eq_getElem hlt] at hget
      injection hget with hget
      rw [hget]
    rw [hp2] at hc
    obtain ⟨nb, hnb, hcnb⟩ := (buildDerived_mem hb c p.1).mp hc
    have hclt : c < cols.length := by
      by_contra hcon
      rw [List.get?_eq_getElem?, List.getElem?_eq_none_iff.mpr (by omega)] at hnb
      cases hnb
    refine ⟨⟨by omega, by rw [← hlra]; omega⟩, ?_⟩
    rw [contains_eq_decide_mem]
    refine decide_eq_true ?_
    rw [getD_eq_getElem_of_lt hclt]
    rw [List.get?_eq_getElem?, List.getElem?_eq_getElem hclt] at hnb
    injection hnb with hnb
    rw [hnb]
    exact hcnb

/-- The transpose of a well-formed matrix: it succeeds and its column
lists are the original row lists. -/
theorem transpose_some {A : BinarySparseMatrix} (hw : rowsWellFormed A) :
    ∃ T, A.transpose = some T ∧
      T = ⟨A.nCols, A.nRows, T.rowAdj, A.rowAdj⟩ ∧
      buildDerived (List.replicate A.nCols []) A.rowAdj = some T.rowAdj := by
  obtain ⟨hlen, -, hrange⟩ := hw
  obtain ⟨ra, hT, hb⟩ := @fromColAdj_some_of A.nCols A.nRows A.rowAdj
    (by rw [hlen]) (fun nb hnb t ht => hrange nb hnb t ht)
  exact ⟨⟨A.nCols, A.nRows, ra, A.rowAdj⟩, hT, rfl, hb⟩

theorem foldl_flip_parity (p : Nat → Bool) :
    ∀ (l : List Nat) (init : Bool),
      l.foldl (fun parity k => if p k then !parity else parity) init =
        xor init (decide (l.countP p % 2 = 1)) := by
  intro l
  induction l with
  | nil => intro init; simp
  | cons a l ih =>
    intro init
    simp only [List.foldl_cons, List.countP_cons]
    by_cases hp : p a
    · rw [if_pos hp, ih, if_pos hp]
      have : decide ((l.countP p + 1) % 2 = 1) = !decide (l.countP p % 2 = 1) := by
        rcases Nat.mod_two_eq_zero_or_one (l.countP p) with h | h
        · rw [decide_eq_true (by omega : (l.countP p + 1) % 2 = 1),
            decide_eq_false (by omega : ¬ l.countP p % 2 = 1)]
          rfl
        · rw [decide_eq_false (by omega : ¬ (l.countP p + 1) % 2 = 1),
            decide_eq_true h]
          rfl
      rw [this]
      cases init <;> cases decide (l.countP p % 2 = 1) <;> rfl
    · rw [if_neg hp, ih, if_neg hp, Nat.add_zero]

theorem rowDot_eq_parity (a b : List Nat) :
    rowDot a b = decide (a.countP (fun k => b.contains k) % 2 = 1) := by
  unfold rowDot
  rw [foldl_flip_parity]
  cases decide (a.countP (fun k => b.contains k) % 2 = 1) <;> rfl

theorem countP_mem_range {n : Nat} {a : List Nat} (ha : a.Nodup)
    (hr : ∀ x ∈ a, x < n) (b : List Nat) :
    a.countP (fun k => b.contains k) =
      (List.range n).countP (fun c => a.contains c && b.contains c) := by
  have h1 : (List.range n).countP (fun c => a.contains c && b.contains c) =
      ((List.range n).filter (fun c => a.contains c)).countP
        (fun c => b.contains c) := by
    rw [List.countP_filter]
    refine List.countP_congr fun c _ => ?_
    constructor
    · intro h
      rw [Bool.and_eq_true] at h
      rw [Bool.and_comm]
      rw [Bool.and_eq_true]
      exact ⟨h.1, h.2⟩
    · intro h
      rw [Bool.and_eq_true] at h
      rw [Bool.and_eq_true]
      exact ⟨h.2, h.1⟩
  rw [h1]
  refine List.Perm.countP_eq _ ?_
  refine (List.perm_ext_iff_of_nodup ha ((List.nodup_range n).filter _)).mpr ?_
  intro x
  rw [List.mem_filter, List.mem_range, contains_eq_decide_mem]
  constructor
  · intro hx
    exact ⟨hr x hx, decide_eq_true hx⟩
  · intro ⟨_, hx⟩
    exact of_decide_eq_true hx

theorem nodup_of_pairwise_lt {l : List Nat} (h : List.Pairwise (· < ·) l) :
    l.Nodup :=
  h.imp Nat.ne_of_lt

/-- C3: from_parity_check_matrices succeeds exactly on orthogonal pairs
(H_X · H_Z^T = 0 over GF(2)) with k = n − rank(H_X) − rank(H_Z) > 0, and
the constructed code carries the two matrices unchanged with k() equal to
that value. -/
theorem cssCode_fromPcm_c3 (hz hx : BinarySparseMatrix)
    (hwz : rowsWellFormed hz) (hwx : rowsWellFormed hx)
    (hcols : hx.nCols = hz.nCols) :
    ((CssCode.fromParityCheckMatrices hz hx).isSome = true ↔
      orthogonalGF2 hx hz ∧ 0 < (hz.nCols : Int) - hz.rank - hx.rank) ∧
    ∀ c, CssCode.fromParityCheckMatrices hz hx = some c →
      c.hz = hz ∧ c.hx = hx ∧
        (c.k : Int) = (hz.nCols : Int) - hz.rank - hx.rank := by
  obtain ⟨T, hT, hTeq, hTbuild⟩ := transpose_some hwz
  rw [hTeq] at hT
  have hrowsLen : (hx.rowAdj.map fun nb =>
      (List.range hz.nRows).filter fun c => rowDot nb (hz.rowAdj.getD c [])).length =
      hx.nRows := by
    rw [List.length_map, hwx.1]
  obtain ⟨caP, hmm, hbuildP⟩ := @fromRowAdj_some_of hx.nRows hz.nRows _
    hrowsLen (by
      intro nb hnb t ht
      rw [List.mem_map] at hnb
      obtain ⟨nb0, -, rfl⟩ := hnb
      have := List.mem_filter.mp ht
      simpa using this.1)
  have hmatmul : hx.matMul ⟨hz.nCols, hz.nRows, T.rowAdj, hz.rowAdj⟩ =
      some ⟨hx.nRows, hz.nRows,
        hx.rowAdj.map fun nb =>
          (List.range hz.nRows).filter fun c => rowDot nb (hz.rowAdj.getD c []),
        caP⟩ := by
    unfold BinarySparseMatrix.matMul
    rw [if_pos hcols]
    exact hmm
  have hP : ∀ i < hx.nRows, ∀ j < hz.nRows,
      (rowDot (hx.rowAdj.getD i []) (hz.rowAdj.getD j []) = false ↔
        orthoEntryOdd hx hz i j = false) := by
    intro i hi j hj
    rw [rowDot_eq_parity]
    have hi' : i < hx.rowAdj.length := by rw [hwx.1]; exact hi
    have hnb : hx.rowAdj.getD i [] ∈ hx.rowAdj := by
      rw [getD_eq_getElem_of_lt hi']
      exact List.getElem_mem hi'
    have hnd : (hx.rowAdj.getD i []).Nodup :=
      nodup_of_pairwise_lt (hwx.2.1 _ hnb)
    have hrg : ∀ x ∈ hx.rowAdj.getD i [], x < hz.nCols := by
      intro x hxmem
      rw [← hcols]
      exact hwx.2.2 _ hnb x hxmem
    rw [countP_mem_range hnd hrg]
    unfold orthoEntryOdd
    exact Iff.rfl
  have hPiff :
      ((hx.rowAdj.map fun nb =>
          (List.range hz.nRows).filter fun c => rowDot nb (hz.rowAdj.getD c [])) =
        List.replicate hx.nRows []) ↔ orthogonalGF2 hx hz := by
    constructor
    · intro h i hi j hj
      have hi' : i < hx.rowAdj.length := by rw [hwx.1]; exact hi
      have h1 : ((List.range hz.nRows).filter fun c =>
          rowDot (hx.rowAdj.getD i []) (hz.rowAdj.getD c [])) = [] := by
        have h2 := congrArg (fun l => l.getD i ([] : List Nat)) h
        simp only at h2
        rw [getD_eq_getElem_of_lt (by rw [List.length_map]; exact hi'),
          List.getElem_map, getD_replicate_nil] at h2
        rw [getD_eq_getElem_of_lt hi']
        exact h2
      rw [← hP i hi j hj]
      have := List.filter_eq_nil_iff.mp h1
      have hjr : j ∈ List.range hz.nRows := List.mem_range.mpr hj
      have := this j hjr
      cases hval : rowDot (hx.rowAdj.getD i []) (hz.rowAdj.getD j []) with
      | false => rfl
      | true => rw [hval] at this; cases this rfl
    · intro hortho
      refine List.eq_replicate_iff.mpr ⟨hrowsLen, ?_⟩
      intro b hb
      rw [List.mem_map] at hb
      obtain ⟨nb, hnbmem, rfl⟩ := hb
      rw [List.filter_eq_nil_iff]
      intro j hjr
      obtain ⟨k, hk⟩ := List.mem_iff_get?.mp hnbmem
      have hklt : k < hx.rowAdj.length := by
        by_contra hcon
        rw [List.get?_eq_getElem?, List.getElem?_eq_none_iff.mpr (by omega)] at hk
        cases hk
      have hnbval : hx.rowAdj.getD k [] = nb := by
        rw [getD_eq_getElem_of_lt hklt]
        rw [List.get?_eq_getElem?, List.getElem?_eq_getElem hklt] at hk
        injection hk
      have hkR : k < hx.nRows := by rw [← hwx.1]; exact hklt
      have hjR : j < hz.nRows := List.mem_range.mp hjr
      have := (hP k hkR j hjR).mpr (hortho k hkR j hjR)
      rw [hnbval] at this
      rw [this]
      exact Bool.false_ne_true
  have hdef : CssCode.fromParityCheckMatrices hz hx =
      if ((hx.rowAdj.map fun nb =>
          (List.range hz.nRows).filter fun c => rowDot nb (hz.rowAdj.getD c [])) =
            List.replicate hx.nRows [] ∧
          caP = List.replicate hz.nRows []) then
        (if 0 < (hz.nCols : Int) - hz.rank - hx.rank then some ⟨hz, hx⟩ else none)
      else none := by
    unfold CssCode.fromParityCheckMatrices
    unfold BinarySparseMatrix.transpose
    unfold BinarySparseMatrix.transpose at hT
    rw [hT]
    simp only [Option.bind_eq_bind, Option.some_bind]
    rw [hmatmul]
    simp only [Option.bind_eq_bind, Option.some_bind]
    rw [zeros_eq]
    simp only [Option.bind_eq_bind, Option.some_bind]
    by_cases hcond : ((hx.rowAdj.map fun nb =>
        (List.range hz.nRows).filter fun c => rowDot nb (hz.rowAdj.getD c [])) =
          List.replicate hx.nRows [] ∧
        caP = List.replicate hz.nRows [])
    · rw [if_pos hcond, if_pos]
      rw [BinarySparseMatrix.mk.injEq]
      exact ⟨rfl, rfl, hcond.1, hcond.2⟩
    · rw [if_neg hcond, if_neg]
      intro hcon
      rw [BinarySparseMatrix.mk.injEq] at hcon
      exact hcond ⟨hcon.2.2.1, hcon.2.2.2⟩
  have hcaP : (hx.rowAdj.map fun nb =>
      (List.range hz.nRows).filter fun c => rowDot nb (hz.rowAdj.getD c [])) =
        List.replicate hx.nRows [] → caP = List.replicate hz.nRows [] := by
    intro h
    rw [h] at hbuildP
    rw [buildDerived_replicate_empty] at hbuildP
    injection hbuildP with hbuildP
    exact hbuildP.symm
  constructor
  · rw [hdef]
    constructor
    · intro hsome
      by_cases hcond : ((hx.rowAdj.map fun nb =>
          (List.range hz.nRows).filter fun c => rowDot nb (hz.rowAdj.getD c [])) =
            List.replicate hx.nRows [] ∧
          caP = List.replicate hz.nRows [])
      · rw [if_pos hcond] at hsome
        by_cases hk : 0 < (hz.nCols : Int) - hz.rank - hx.rank
        · exact ⟨hPiff.mp hcond.1, hk⟩
        · rw [if_neg hk] at hsome
          cases hsome
      · rw [if_neg hcond] at hsome
        cases hsome
    · intro ⟨hortho, hk⟩
      have h1 := hPiff.mpr hortho
      rw [if_pos ⟨h1, hcaP h1⟩, if_pos hk]
      rfl
  · intro c hc
    rw [hdef] at hc
    by_cases hcond : ((hx.rowAdj.map fun nb =>
        (List.range hz.nRows).filter fun c => rowDot nb (hz.rowAdj.getD c [])) =
          List.replicate hx.nRows [] ∧
        caP = List.replicate hz.nRows [])
    · rw [if_pos hcond] at hc
      by_cases hk : 0 < (hz.nCols : Int) - hz.rank - hx.rank
      · rw [if_pos hk] at hc
        injection hc with hc
        subst hc
        refine ⟨rfl, rfl, ?_⟩
        unfold CssCode.k
        simp only
        omega
      · rw [if_neg hk] at hc
        cases hc
    · rw [if_neg hcond] at hc
      cases hc

/-- C3 witness: the Shor-code pair is accepted. -/
theorem cssCode_fromPcm_c3_witness :
    (CssCode.fromParityCheckMatrices
        ⟨6, 9, [[0, 1], [1, 2], [3, 4], [4, 5], [6, 7], [7, 8]],
          [[0], [0, 1], [1], [2], [2, 3], [3], [4], [4, 5], [5]]⟩
        ⟨2, 9, [[0, 1, 2, 3, 4, 5], [3, 4, 5, 6, 7, 8]],
          [[0], [0], [0], [0, 1], [0, 1], [0, 1], [1], [1], [1]]⟩).isSome = true :=
  (cssCode_fromPcm_c3 _ _ (by decide) (by decide) (by decide)).1.mpr
    ⟨by decide, by decide⟩

theorem llr0_pos {p : ℝ} (h0 : 0 < p) (h1 : p < 1 / 2) : 0 < llr0 p := by
  unfold llr0
  refine Real.log_pos ?_
  rw [one_lt_div h0]
  linarith

theorem tanh_pos {x : ℝ} (h : 0 < x) : 0 < Real.tanh x := by
  rw [Real.tanh_eq_sinh_div_cosh]
  exact div_pos (Real.sinh_pos_iff.mpr h) (Real.cosh_pos x)

theorem foldl_mul_tanh_pos (f : Nat → ℝ) :
    ∀ (l : List Nat), (∀ x ∈ l, 0 < f x) → ∀ init : ℝ, 0 < init →
      0 < l.foldl (fun acc x => acc * f x) init := by
  intro l
  induction l with
  | nil => intro _ init hi; exact hi
  | cons a l ih =>
    intro h init hi
    simp only [List.foldl_cons]
    exact ih (fun x hx => h x (by simp [hx])) _
      (mul_pos hi (h a (by simp)))

theorem getD_replicate_zero (m i : Nat) :
    (List.replicate m (0 : Nat)).getD i 0 = 0 := by
  rcases lt_or_ge i m with h | h
  · simp [List.getD, List.getElem?_replicate, h]
  · have : (List.replicate m (0 : Nat)).length ≤ i := by simpa using h
    simp [List.getD, List.getElem?_eq_none_iff.mpr this]

theorem checkToBitPS_pos {H : BinarySparseMatrix} {m : Nat} {st : BpState}
    {i j : Nat} (hb2c : ∀ l ∈ H.rowAdj.getD i [], 0 < st.b2c i l) :
    0 < checkToBitPS H (List.replicate m 0) st i j := by
  unfold checkToBitPS psLnArgSerial clampUnit psProdOthers
  simp only [getD_replicate_zero, ne_eq, not_true_eq_false, if_false, one_mul]
  set prodv := ((H.rowAdj.getD i []).filter (fun l => l ≠ j)).foldl
    (fun acc l => acc * Real.tanh (st.b2c i l / 2)) 1 with hprodv
  have hpos : 0 < prodv := by
    rw [hprodv]
    refine foldl_mul_tanh_pos _ _ ?_ 1 one_pos
    intro x hx
    exact tanh_pos (by
      have := hb2c x (List.mem_of_mem_filter hx)
      linarith)
  have hcl_pos : 0 < min (max prodv (-0.9999999)) 0.9999999 :=
    lt_min (lt_of_lt_of_le hpos (le_max_left _ _)) (by norm_num)
  have hcl_le : min (max prodv (-0.9999999)) 0.9999999 ≤ 0.9999999 :=
    min_le_right _ _
  refine Real.log_pos ?_
  rw [one_lt_div (by linarith)]
  linarith

theorem serialStepA_fold (d : BpDecoder) (m : Nat) (alpha : ℝ) (j : Nat)
    (hmethod : d.bpMethod = BpMethod.ProductSum) :
    ∀ (cs : List Nat), cs.Nodup → (∀ ci ∈ cs, edgeMem d.pcm ci j) →
    ∀ s0 : BpState, (∀ i l, edgeMem d.pcm i l → 0 < s0.b2c i l) →
      (cs.foldl (serialStepA d (List.replicate m 0) alpha j) s0).b2c = s0.b2c ∧
      (cs.foldl (serialStepA d (List.replicate m 0) alpha j) s0).dec = s0.dec ∧
      (cs.foldl (serialStepA d (List.replicate m 0) alpha j) s0).lpr0 = s0.lpr0 ∧
      (∀ a b, ¬ (a ∈ cs ∧ b = j) →
        (cs.foldl (serialStepA d (List.replicate m 0) alpha j) s0).c2b a b =
          s0.c2b a b) ∧
      (∀ ci ∈ cs,
        0 < (cs.foldl (serialStepA d (List.replicate m 0) alpha j) s0).c2b ci j) ∧
      (∀ b, b ≠ j →
        (cs.foldl (serialStepA d (List.replicate m 0) alpha j) s0).lpr b =
          s0.lpr b) ∧
      (cs.foldl (serialStepA d (List.replicate m 0) alpha j) s0).lpr j =
        s0.lpr j + (cs.map fun ci =>
          (cs.foldl (serialStepA d (List.replicate m 0) alpha j) s0).c2b ci j).sum := by
  intro cs
  induction cs with
  | nil =>
    intro _ _ s0 _
    refine ⟨rfl, rfl, rfl, fun a b _ => rfl, fun ci h => absurd h (by simp),
      fun b _ => rfl, by simp⟩
  | cons ci rest ih =>
    intro hnodup hedge s0 hpos
    have hciedge : edgeMem d.pcm ci j := hedge ci (by simp)
    have hcinotin : ci ∉ rest := (List.nodup_cons.mp hnodup).1
    set msg := checkToBitPS d.pcm (List.replicate m 0) s0 ci j with hmsgdef
    have hmsgpos : 0 < msg :=
      checkToBitPS_pos fun l hl => hpos ci l hl
    have hsA : (serialStepA d (List.replicate m 0) alpha j s0 ci) =
        { s0 with
          c2b := fun a b =>
            if a = ci ∧ b = j ∧ edgeMem d.pcm ci j then msg else s0.c2b a b
          lpr := Function.update s0.lpr j (s0.lpr j + msg) } := by
      unfold serialStepA
      rw [hmethod]
    set sA := serialStepA d (List.replicate m 0) alpha j s0 ci with hsAdef
    have hApos : ∀ i l, edgeMem d.pcm i l → 0 < sA.b2c i l := by
      intro i l hil
      rw [hsA]
      exact hpos i l hil
    obtain ⟨ih1, ih2, ih3, ih4, ih5, ih6, ih7⟩ :=
      ih (List.nodup_cons.mp hnodup).2 (fun x hx => hedge x (by simp [hx])) sA hApos
    simp only [List.foldl_cons, ← hsAdef]
    have hc2b_ci : (rest.foldl (serialStepA d (List.replicate m 0) alpha j) sA).c2b
        ci j = msg := by
      rw [ih4 ci j (fun hcon => hcinotin hcon.1), hsA]
      simp [hciedge]
    refine ⟨?_, ?_, ?_, ?_, ?_, ?_, ?_⟩
    · rw [ih1, hsA]
    · rw [ih2, hsA]
    · rw [ih3, hsA]
    · intro a b hab
      rw [ih4 a b (fun hcon => hab ⟨by simp [hcon.1], hcon.2⟩), hsA]
      simp only
      rw [if_neg]
      intro hcon
      exact hab ⟨by simp [hcon.1], hcon.2.1⟩
    · intro x hx
      rcases List.mem_cons.mp hx with hx | hx
      · rw [hx, hc2b_ci]
        exact hmsgpos
      · exact ih5 x hx
    · intro b hb
      rw [ih6 b hb, hsA]
      simp only
      rw [Function.update_noteq hb]
    · rw [ih7]
      have hsAlpr : sA.lpr j = s0.lpr j + msg := by
        rw [hsA]
        simp
      rw [hsAlpr]
      simp only [List.map_cons, List.sum_cons, hc2b_ci]
      ring

theorem serialBitUpdate_inv (d : BpDecoder) (m : Nat) (alpha : ℝ)
    (hmethod : d.bpMethod = BpMethod.ProductSum)
    (hlenp : d.channelProbabilities.length = d.bitCount)
    (hprobs : ∀ q ∈ d.channelProbabilities, 0 < q ∧ q < 1 / 2)
    (hcons : ∀ i l, l ∈ d.pcm.rowAdj.getD i [] ↔ i ∈ d.pcm.colAdj.getD l [])
    (hnodup : ∀ l, (d.pcm.colAdj.getD l []).Nodup)
    (j : Nat) (hj : j < d.bitCount)
    (st : BpState) (hb2c : ∀ i l, edgeMem d.pcm i l → 0 < st.b2c i l)
    (hdec : ∀ b, st.dec b = 0) :
    (∀ i l, edgeMem d.pcm i l →
      0 < (serialBitUpdate d (List.replicate m 0) alpha st j).b2c i l) ∧
    (∀ b, (serialBitUpdate d (List.replicate m 0) alpha st j).dec b = 0) := by
  have hp : 0 < d.channelProbabilities.getD j 0 ∧
      d.channelProbabilities.getD j 0 < 1 / 2 := by
    have hjl : j < d.channelProbabilities.length := by rw [hlenp]; exact hj
    refine hprobs _ ?_
    rw [List.getD_eq_getElem _ _ hjl]
    exact List.getElem_mem hjl
  have hllr : 0 < llr0 (d.channelProbabilities.getD j 0) := llr0_pos hp.1 hp.2
  have hb2c' : ∀ i l, edgeMem d.pcm i l →
      0 < ({ st with lpr := Function.update st.lpr j (llr0 (d.channelProbabilities.getD j 0)) } : BpState).b2c i l :=
    fun i l h => hb2c i l h
  obtain ⟨f1, f2, f3, f4, f5, f6, f7⟩ :=
    serialStepA_fold d m alpha j hmethod (d.pcm.colAdj.getD j []) (hnodup j)
      (fun ci hci => (hcons ci j).mpr hci)
      { st with lpr := Function.update st.lpr j (llr0 (d.channelProbabilities.getD j 0)) } hb2c'
  have hresult : serialBitUpdate d (List.replicate m 0) alpha st j =
      (fun stA : BpState =>
        { stA with
          dec := Function.update stA.dec j (if stA.lpr j ≤ 0 then 1 else 0)
          b2c := fun a b =>
            if b = j ∧ a ∈ d.pcm.colAdj.getD j [] ∧ edgeMem d.pcm a j then stA.lpr j - stA.c2b a b
            else stA.b2c a b })
        ((d.pcm.colAdj.getD j []).foldl (serialStepA d (List.replicate m 0) alpha j)
          { st with lpr := Function.update st.lpr j (llr0 (d.channelProbabilities.getD j 0)) }) := rfl
  set stA := (d.pcm.colAdj.getD j []).foldl
    (serialStepA d (List.replicate m 0) alpha j)
    { st with lpr := Function.update st.lpr j (llr0 (d.channelProbabilities.getD j 0)) } with hstA
  simp only at hresult
  have hsum_nonneg : 0 ≤ ((d.pcm.colAdj.getD j []).map fun ci => stA.c2b ci j).sum := by
    refine List.sum_nonneg fun x hx => ?_
    rw [List.mem_map] at hx
    obtain ⟨ci, hci, rfl⟩ := hx
    exact le_of_lt (f5 ci hci)
  have hlprA : stA.lpr j =
      llr0 (d.channelProbabilities.getD j 0) +
        ((d.pcm.colAdj.getD j []).map fun ci => stA.c2b ci j).sum := by
    rw [f7]
    simp
  have hlpr_pos : 0 < stA.lpr j := by
    rw [hlprA]
    linarith
  rw [hresult]
  constructor
  · intro i l hedge
    simp only
    by_cases hcond : l = j ∧ i ∈ d.pcm.colAdj.getD j [] ∧ edgeMem d.pcm i j
    · obtain ⟨rfl, hmem, hedgej⟩ := hcond
      rw [if_pos ⟨rfl, hmem, hedgej⟩]
      have hperm : (d.pcm.colAdj.getD l []).Perm
          (i :: (d.pcm.colAdj.getD l []).erase i) :=
        List.perm_cons_erase hmem
      have hsum : ((d.pcm.colAdj.getD l []).map fun ci => stA.c2b ci l).sum =
          stA.c2b i l +
            (((d.pcm.colAdj.getD l []).erase i).map fun ci => stA.c2b ci l).sum := by
        rw [(hperm.map fun ci => stA.c2b ci l).sum_eq]
        simp
      have herase : 0 ≤
          (((d.pcm.colAdj.getD l []).erase i).map fun ci => stA.c2b ci l).sum := by
        refine List.sum_nonneg fun x hx => ?_
        rw [List.mem_map] at hx
        obtain ⟨ci, hci, rfl⟩ := hx
        exact le_of_lt (f5 ci (List.mem_of_mem_erase hci))
      rw [hlprA, hsum]
      linarith
    · rw [if_neg hcond]
      have : stA.b2c = st.b2c := f1
      rw [this]
      exact hb2c i l hedge
  · intro b
    simp only
    by_cases hb : b = j
    · rw [hb, Function.update_same, if_neg (by linarith)]
    · rw [Function.update_noteq hb]
      have : stA.dec = st.dec := f2
      rw [this]
      exact hdec b

theorem serialSweep_inv (d : BpDecoder) (m : Nat) (alpha : ℝ)
    (hmethod : d.bpMethod = BpMethod.ProductSum)
    (hlenp : d.channelProbabilities.length = d.bitCount)
    (hprobs : ∀ q ∈ d.channelProbabilities, 0 < q ∧ q < 1 / 2)
    (hcons : ∀ i l, l ∈ d.pcm.rowAdj.getD i [] ↔ i ∈ d.pcm.colAdj.getD l [])
    (hnodup : ∀ l, (d.pcm.colAdj.getD l []).Nodup) :
    ∀ (order : List Nat), (∀ x ∈ order, x < d.bitCount) →
    ∀ st : BpState, (∀ i l, edgeMem d.pcm i l → 0 < st.b2c i l) →
      (∀ b, st.dec b = 0) →
      (∀ i l, edgeMem d.pcm i l →
        0 < (order.foldl (serialBitUpdate d (List.replicate m 0) alpha) st).b2c i l) ∧
      (∀ b, (order.foldl (serialBitUpdate d (List.replicate m 0) alpha) st).dec b = 0) := by
  intro order
  induction order with
  | nil => intro _ st h1 h2; exact ⟨h1, h2⟩
  | cons j rest ih =>
    intro horder st h1 h2
    simp only [List.foldl_cons]
    obtain ⟨g1, g2⟩ := serialBitUpdate_inv d m alpha hmethod hlenp hprobs hcons
      hnodup j (horder j (by simp)) st h1 h2
    exact ih (fun x hx => horder x (by simp [hx])) _ g1 g2

/-- C4: with the sum-product method on the serial schedule, a channel
with per-bit prior below 1/2 and a consistent parity-check matrix,
decoding the all-zero syndrome from the zero initial state returns the
all-zero error pattern with converged = true recorded on iteration 1. -/
theorem bp_serial_zero_c4 (d : BpDecoder)
    (hmethod : d.bpMethod = BpMethod.ProductSum)
    (hsched : d.schedule = BpSchedule.Serial)
    (_hrand : d.randomSerialSchedule = false)
    (hmax : 1 ≤ d.maximumIterations)
    (hlenp : d.channelProbabilities.length = d.bitCount)
    (hprobs : ∀ q ∈ d.channelProbabilities, 0 < q ∧ q < 1 / 2)
    (hrows : d.pcm.rowAdj.length = d.pcm.nRows)
    (hcons : ∀ i l, l ∈ d.pcm.rowAdj.getD i [] ↔ i ∈ d.pcm.colAdj.getD l [])
    (hrange : ∀ i l, l ∈ d.pcm.rowAdj.getD i [] → l < d.pcm.nCols)
    (hnodup : ∀ l, (d.pcm.colAdj.getD l []).Nodup) :
    d.decode (List.replicate d.pcm.nRows 0) =
      ⟨List.replicate d.pcm.nCols 0, true, 1⟩ := by
  have hdispatch : d.decode (List.replicate d.pcm.nRows 0) =
      bpDecodeSerial d (List.replicate d.pcm.nRows 0) := by
    unfold BpDecoder.decode
    rw [if_neg (by rw [hsched]; decide)]
  rw [hdispatch]
  have hst0 : ∀ i l, edgeMem d.pcm i l →
      0 < (initLogDomainBp d BpState.zero).b2c i l := by
    intro i l hedge
    unfold initLogDomainBp
    simp only
    rw [if_pos ⟨hrange i l hedge, (hcons i l).mp hedge, hedge⟩]
    have hl : l < d.channelProbabilities.length := by
      rw [hlenp]
      exact hrange i l hedge
    refine llr0_pos ?_ ?_
    · exact (hprobs _ (by rw [List.getD_eq_getElem _ _ hl]; exact List.getElem_mem hl)).1
    · exact (hprobs _ (by rw [List.getD_eq_getElem _ _ hl]; exact List.getElem_mem hl)).2
  have hdec0 : ∀ b, (initLogDomainBp d BpState.zero).dec b = 0 := fun b => rfl
  have horder : serialOrder d (initLogDomainBp d BpState.zero) 1 =
      List.range d.bitCount := by
    unfold serialOrder
    rw [if_neg (by rw [hsched]; decide)]
  obtain ⟨hS1, hS2⟩ := serialSweep_inv d d.pcm.nRows (msAlpha d 1) hmethod hlenp
    hprobs hcons hnodup (List.range d.bitCount)
    (fun x hx => List.mem_range.mp hx)
    (initLogDomainBp d BpState.zero) hst0 hdec0
  have hdecList : decList d ((List.range d.bitCount).foldl
      (serialBitUpdate d (List.replicate d.pcm.nRows 0) (msAlpha d 1))
      (initLogDomainBp d BpState.zero)) = List.replicate d.pcm.nCols 0 := by
    unfold decList
    refine List.eq_replicate_iff.mpr ⟨by simp [BpDecoder.bitCount], ?_⟩
    intro b hb
    rw [List.mem_map] at hb
    obtain ⟨x, -, rfl⟩ := hb
    exact hS2 x
  have hcand : mulVecU8 d.pcm (List.replicate d.pcm.nCols 0) =
      List.replicate d.pcm.nRows 0 := by
    unfold mulVecU8
    refine List.eq_replicate_iff.mpr ⟨by rw [List.length_map, hrows], ?_⟩
    intro b hb
    rw [List.mem_map] at hb
    obtain ⟨nb, -, rfl⟩ := hb
    have : (nb.countP fun c => (List.replicate d.pcm.nCols 0).getD c 0 ≠ 0) = 0 := by
      refine List.countP_eq_zero.mpr fun c _ => ?_
      simp [getD_replicate_zero]
    rw [this]
  obtain ⟨k, hk⟩ : ∃ k, d.maximumIterations = k + 1 :=
    ⟨d.maximumIterations - 1, by omega⟩
  unfold bpDecodeSerial
  rw [hk]
  simp only [serialIterate]
  rw [horder]
  rw [if_pos (by rw [hdecList, hcand])]
  simp only
  rw [hdecList]

theorem consistentB_spec {A : BinarySparseMatrix} (h : consistentB A = true) :
    (∀ i l, l ∈ A.rowAdj.getD i [] ↔ i ∈ A.colAdj.getD l []) ∧
    (∀ i l, l ∈ A.rowAdj.getD i [] → l < A.nCols) ∧
    A.rowAdj.length = A.nRows := by
  unfold consistentB at h
  simp only [Bool.and_eq_true, beq_iff_eq, List.all_eq_true, decide_eq_true_eq] at h
  obtain ⟨⟨⟨⟨hlr, hlc⟩, hiff⟩, hrr⟩, hcr⟩ := h
  have hrowMem : ∀ i l, l ∈ A.rowAdj.getD i [] → i < A.nRows ∧ l < A.nCols := by
    intro i l hl
    by_cases hi : i < A.rowAdj.length
    · rw [getD_eq_getElem_of_lt hi] at hl
      refine ⟨by omega, hrr _ (List.getElem_mem hi) l hl⟩
    · rw [List.getD, List.get?_eq_none.mpr (by omega)] at hl
      simp at hl
  have hcolMem : ∀ i l, i ∈ A.colAdj.getD l [] → i < A.nRows ∧ l < A.nCols := by
    intro i l hi
    by_cases hl : l < A.colAdj.length
    · rw [getD_eq_getElem_of_lt hl] at hi
      refine ⟨hcr _ (List.getElem_mem hl) i hi, by omega⟩
    · rw [List.getD, List.get?_eq_none.mpr (by omega)] at hi
      simp at hi
  refine ⟨?_, fun i l hl => (hrowMem i l hl).2, hlr⟩
  intro i l
  constructor
  · intro hl
    obtain ⟨hi, hlc'⟩ := hrowMem i l hl
    have := hiff i (List.mem_range.mpr hi) l (List.mem_range.mpr hlc')
    rw [contains_eq_decide_mem, contains_eq_decide_mem, decide_eq_true hl] at this
    exact of_decide_eq_true this.symm
  · intro hi
    obtain ⟨hi', hlc'⟩ := hcolMem i l hi
    have := hiff i (List.mem_range.mpr hi') l (List.mem_range.mpr hlc')
    rw [contains_eq_decide_mem, contains_eq_decide_mem, decide_eq_true hi] at this
    exact of_decide_eq_true this

theorem colNodup_unbounded {A : BinarySparseMatrix}
    (h : ∀ nb ∈ A.colAdj, nb.Nodup) : ∀ l, (A.colAdj.getD l []).Nodup := by
  intro l
  by_cases hl : l < A.colAdj.length
  · rw [getD_eq_getElem_of_lt hl]
    exact h _ (List.getElem_mem hl)
  · rw [List.getD, List.get?_eq_none.mpr (by omega)]
    exact List.nodup_nil

/-- C4 witness: scenario S1 — H = [[1,1,0],[0,1,1]], uniform p = 0.1,
sum-product, serial schedule, max_iter 10, zero syndrome. -/
theorem bp_serial_zero_c4_witness :
    (BpDecoder.fromPcm ⟨2, 3, [[0, 1], [1, 2]], [[0], [0, 1], [1]]⟩
        BpMethod.ProductSum BpSchedule.Serial 10 0 false
        (List.replicate 3 (0.1 : ℝ))).decode (List.replicate 2 0) =
      ⟨List.replicate 3 0, true, 1⟩ := by
  have hcons := consistentB_spec
    (A := ⟨2, 3, [[0, 1], [1, 2]], [[0], [0, 1], [1]]⟩) (by decide)
  refine bp_serial_zero_c4 _ rfl rfl rfl (by decide) rfl ?_ rfl
    hcons.1 hcons.2.1 (colNodup_unbounded (by decide))
  intro q hq
  rw [List.eq_of_mem_replicate hq]
  norm_num

/-! ## Rank (C9): xor_neighbors as vector addition over GF(2) -/

theorem mem_xorNeighbors (x : Nat) :
    ∀ (a b : List Nat), a.Pairwise (· < ·) → b.Pairwise (· < ·) →
      (x ∈ xorNeighbors a b ↔ (x ∈ a ∧ x ∉ b) ∨ (x ∉ a ∧ x ∈ b))
  | [], b, _, _ => by simp [xorNeighbors]
  | x0 :: a, [], _, _ => by simp [xorNeighbors]
  | x0 :: a, y0 :: b, ha, hb => by
    obtain ⟨hx0, ha'⟩ := List.pairwise_cons.mp ha
    obtain ⟨hy0, hb'⟩ := List.pairwise_cons.mp hb
    have hx0a : x0 ∉ a := fun h => lt_irrefl x0 (hx0 x0 h)
    have hy0b : y0 ∉ b := fun h => lt_irrefl y0 (hy0 y0 h)
    by_cases hxy : x0 = y0
    · subst hxy
      rw [xorNeighbors, if_pos rfl,
        mem_xorNeighbors x a b ha' hb']
      by_cases hx : x = x0
      · subst hx
        simp [hx0a, hy0b]
      · simp [List.mem_cons, hx]
    · by_cases hlt : x0 < y0
      · have hx0b : x0 ∉ y0 :: b := by
          intro h
          rcases List.mem_cons.mp h with h | h
          · exact hxy h
          · exact lt_irrefl x0 (lt_trans hlt (hy0 x0 h))
        rw [xorNeighbors, if_neg hxy, if_pos hlt, List.mem_cons,
          mem_xorNeighbors x a (y0 :: b) ha' hb]
        by_cases hx : x = x0
        · subst hx
          simp [hx0a, hx0b]
        · simp [List.mem_cons, hx]
      · have hylt : y0 < x0 := by
          rcases Nat.lt_trichotomy x0 y0 with h | h | h
          · exact absurd h hlt
          · exact absurd h hxy
          · exact h
        have hy0a : y0 ∉ x0 :: a := by
          intro h
          rcases List.mem_cons.mp h with h | h
          · exact hxy h.symm
          · exact lt_irrefl y0 (lt_trans hylt (hx0 y0 h))
        rw [xorNeighbors, if_neg hxy, if_neg hlt, List.mem_cons,
          mem_xorNeighbors x (x0 :: a) b ha hb']
        by_cases hx : x = y0
        · subst hx
          simp [hy0a, hy0b]
        · simp [List.mem_cons, hx]
termination_by a b => a.length + b.length

theorem xorNeighbors_sorted :
    ∀ (a b : List Nat), a.Pairwise (· < ·) → b.Pairwise (· < ·) →
      (xorNeighbors a b).Pairwise (· < ·)
  | [], b, _, hb => by simpa [xorNeighbors] using hb
  | x0 :: a, [], ha, _ => by simpa [xorNeighbors] using ha
  | x0 :: a, y0 :: b, ha, hb => by
    obtain ⟨hx0, ha'⟩ := List.pairwise_cons.mp ha
    obtain ⟨hy0, hb'⟩ := List.pairwise_cons.mp hb
    by_cases hxy : x0 = y0
    · rw [xorNeighbors, if_pos hxy]
      exact xorNeighbors_sorted a b ha' hb'
    · by_cases hlt : x0 < y0
      · rw [xorNeighbors, if_neg hxy, if_pos hlt]
        refine List.pairwise_cons.mpr ⟨?_, xorNeighbors_sorted a (y0 :: b) ha' hb⟩
        intro z hz
        rcases (mem_xorNeighbors z a (y0 :: b) ha' hb).mp hz with ⟨hz, -⟩ | ⟨-, hz⟩
        · exact hx0 z hz
        · rcases List.mem_cons.mp hz with rfl | hz
          · exact hlt
          · exact lt_trans hlt (hy0 z hz)
      · have hylt : y0 < x0 := by
          rcases Nat.lt_trichotomy x0 y0 with h | h | h
          · exact absurd h hlt
          · exact absurd h hxy
          · exact h
        rw [xorNeighbors, if_neg hxy, if_neg hlt]
        refine List.pairwise_cons.mpr ⟨?_, xorNeighbors_sorted (x0 :: a) b ha hb'⟩
        intro z hz
        rcases (mem_xorNeighbors z (x0 :: a) b ha hb').mp hz with ⟨hz, -⟩ | ⟨-, hz⟩
        · rcases List.mem_cons.mp hz with rfl | hz
          · exact hylt
          · exact lt_trans hylt (hx0 z hz)
        · exact hy0 z hz
termination_by a b => a.length + b.length

theorem mem_of_mem_xorNeighbors {a b : List Nat} (ha : a.Pairwise (· < ·))
    (hb : b.Pairwise (· < ·)) {x : Nat} (h : x ∈ xorNeighbors a b) :
    x ∈ a ∨ x ∈ b := by
  rcases (mem_xorNeighbors x a b ha hb).mp h with ⟨h1, -⟩ | ⟨-, h2⟩
  · exact Or.inl h1
  · exact Or.inr h2

theorem rowVec_xorNeighbors (C : Nat) {a b : List Nat}
    (ha : a.Pairwise (· < ·)) (hb : b.Pairwise (· < ·)) :
    rowVec C (xorNeighbors a b) = rowVec C a + rowVec C b := by
  funext j
  rw [Pi.add_apply]
  simp only [rowVec, mem_xorNeighbors (j : Nat) a b ha hb]
  by_cases hja : (j : Nat) ∈ a <;> by_cases hjb : (j : Nat) ∈ b <;>
    · simp only [hja, hjb, not_true_eq_false, not_false_eq_true,
        true_and, and_true, false_and, and_false, or_false, false_or,
        or_self, if_true, if_false]
      decide

theorem rowVec_nil (C : Nat) : rowVec C [] = 0 := by
  funext j
  simp [rowVec]

theorem getD_eq_nil_of_le {l : List (List Nat)} {i : Nat}
    (h : l.length ≤ i) : l.getD i [] = [] := by
  rw [List.getD, List.get?_eq_none.mpr h]
  rfl

theorem length_swapRows (m : List (List Nat)) (i j : Nat) :
    (swapRows m i j).length = m.length := by
  simp [swapRows]

theorem getD_swapRows (m : List (List Nat)) {i j : Nat} (k : Nat)
    (hi : i < m.length) (hj : j < m.length) :
    (swapRows m i j).getD k [] =
      if k = j then m.getD i []
      else if k = i then m.getD j [] else m.getD k [] := by
  unfold swapRows
  by_cases hkj : k = j
  · subst hkj
    rw [if_pos rfl, getD_set_self (by simpa using hj)]
  · rw [if_neg hkj, getD_set_ne (fun h => hkj h.symm)]
    by_cases hki : k = i
    · subst hki
      rw [if_pos rfl, getD_set_self hi]
    · rw [if_neg hki, getD_set_ne (fun h => hki h.symm)]

theorem length_rankElim (m : List (List Nat)) (r c : Nat) :
    (rankElim m r c).length = m.length := by
  simp [rankElim]

theorem getD_rankElim (m : List (List Nat)) (r c : Nat) {k : Nat}
    (hk : k < m.length) :
    (rankElim m r c).getD k [] =
      if k ≠ r ∧ (m.getD k []).contains c then
        xorNeighbors (m.getD k []) (m.getD r []) else m.getD k [] := by
  have h1 := List.get_mapIdx m
    (fun row v =>
      if row ≠ r ∧ v.contains c = true then xorNeighbors v (m.getD r []) else v)
    k hk
  simp only [List.get_eq_getElem] at h1
  unfold rankElim
  rw [getD_eq_getElem_of_lt (by simpa using hk), getD_eq_getElem_of_lt hk]
  exact h1

theorem getD_rankElim_ge (m : List (List Nat)) (r c : Nat) {k : Nat}
    (hk : m.length ≤ k) : (rankElim m r c).getD k [] = [] :=
  getD_eq_nil_of_le (by simpa [length_rankElim] using hk)

theorem rowSpan_swapRows {R C : Nat} (m : List (List Nat)) {i j : Nat}
    (hlen : m.length = R) (hi : i < R) (hj : j < R) :
    rowSpan R C (swapRows m i j) = rowSpan R C m := by
  unfold rowSpan
  have hfun : (fun k : Fin R => rowVec C ((swapRows m i j).getD k [])) =
      (fun k : Fin R => rowVec C (m.getD k [])) ∘
        Equiv.swap (⟨j, hj⟩ : Fin R) ⟨i, hi⟩ := by
    funext k
    rw [Function.comp_apply, getD_swapRows m k (by omega) (by omega)]
    by_cases hkj : (k : Nat) = j
    · have : k = (⟨j, hj⟩ : Fin R) := Fin.ext hkj
      subst this
      rw [if_pos rfl, Equiv.swap_apply_left]
    · have hne1 : k ≠ (⟨j, hj⟩ : Fin R) := fun h => hkj (congrArg Fin.val h)
      rw [if_neg hkj]
      by_cases hki : (k : Nat) = i
      · have : k = (⟨i, hi⟩ : Fin R) := Fin.ext hki
        subst this
        rw [if_pos rfl, Equiv.swap_apply_right]
      · have hne2 : k ≠ (⟨i, hi⟩ : Fin R) := fun h => hki (congrArg Fin.val h)
        rw [if_neg hki, Equiv.swap_apply_of_ne_of_ne hne1 hne2]
  rw [hfun, Function.Surjective.range_comp (Equiv.surjective _)]

theorem span_range_add_row {R C : Nat} (v w : Fin R → (Fin C → ZMod 2))
    (r : Fin R) (hr : w r = v r)
    (h : ∀ i, w i = v i ∨ w i = v i + v r) :
    Submodule.span (ZMod 2) (Set.range w) =
      Submodule.span (ZMod 2) (Set.range v) := by
  apply le_antisymm
  · rw [Submodule.span_le]
    rintro _ ⟨i, rfl⟩
    rcases h i with hcase | hcase
    · rw [hcase]
      exact Submodule.subset_span ⟨i, rfl⟩
    · rw [hcase]
      exact Submodule.add_mem _ (Submodule.subset_span ⟨i, rfl⟩)
        (Submodule.subset_span ⟨r, rfl⟩)
  · rw [Submodule.span_le]
    rintro _ ⟨i, rfl⟩
    rcases h i with hcase | hcase
    · rw [← hcase]
      exact Submodule.subset_span ⟨i, rfl⟩
    · have : v i = w i - w r := by
        rw [hcase, hr]
        abel
      rw [this]
      exact Submodule.sub_mem _ (Submodule.subset_span ⟨i, rfl⟩)
        (Submodule.subset_span ⟨r, rfl⟩)

theorem rowSpan_rankElim {R C : Nat} (m : List (List Nat)) {r c : Nat}
    (hlen : m.length = R) (hr : r < R)
    (hsorted : ∀ i : Nat, (m.getD i []).Pairwise (· < ·)) :
    rowSpan R C (rankElim m r c) = rowSpan R C m := by
  unfold rowSpan
  refine span_range_add_row _ _ (⟨r, hr⟩ : Fin R) ?_ ?_
  · rw [getD_rankElim m r c (by omega)]
    simp
  · intro i
    rw [getD_rankElim m r c (by omega : (i : Nat) < m.length)]
    by_cases hcond : (i : Nat) ≠ r ∧ (m.getD (i : Nat) []).contains c = true
    · rw [if_pos hcond,
        rowVec_xorNeighbors C (hsorted (i : Nat)) (hsorted r)]
      exact Or.inr rfl
    · rw [if_neg hcond]
      exact Or.inl rfl

theorem mem_of_contains {l : List Nat} {x : Nat} (h : l.contains x = true) :
    x ∈ l := by
  rw [contains_eq_decide_mem] at h
  exact of_decide_eq_true h

theorem contains_of_mem {l : List Nat} {x : Nat} (h : x ∈ l) :
    l.contains x = true := by
  rw [contains_eq_decide_mem]
  exact decide_eq_true h

theorem rankStep_inv {R C : Nat} {S : Submodule (ZMod 2) (Fin C → ZMod 2)}
    {c : Nat} {m : List (List Nat)} {r : Nat}
    (h : RankInv R C S c (m, r)) :
    RankInv R C S (c + 1) (rankStep R (m, r) c) := by
  obtain ⟨hlen, hsort, hbnd, hrR, hspan, hsupp, pcols, hpc, hpmem, hpexcl⟩ := h
  dsimp only at hlen hsort hbnd hrR hspan hsupp pcols hpc hpmem hpexcl
  unfold rankStep
  cases hfind : (List.range' r (R - r)).find?
      (fun row => (m.getD row []).contains c) with
  | none =>
    show RankInv R C S (c + 1) (m, r)
    unfold RankInv
    dsimp only
    have hnone := List.find?_eq_none.mp hfind
    refine ⟨hlen, hsort, hbnd, hrR, hspan, ?_, pcols, ?_, hpmem, hpexcl⟩
    · intro i hi x hx
      have hcx : c ≤ x := hsupp i hi x hx
      rcases Nat.eq_or_lt_of_le hcx with rfl | h2
      · exfalso
        by_cases hiR : i < R
        · have hmem : i ∈ List.range' r (R - r) :=
            List.mem_range'.mpr ⟨i - r, by omega, by omega⟩
          exact hnone i hmem (contains_of_mem hx)
        · rw [getD_eq_nil_of_le (by omega)] at hx
          exact List.not_mem_nil _ hx
      · omega
    · intro j
      exact lt_trans (hpc j) (Nat.lt_succ_self c)
  | some pivot =>
    show RankInv R C S (c + 1) (rankElim (swapRows m r pivot) r c, r + 1)
    unfold RankInv
    dsimp only
    have hprange : pivot ∈ List.range' r (R - r) :=
      List.mem_of_find?_eq_some hfind
    have hppred : (m.getD pivot []).contains c = true :=
      List.find?_some (p := fun row => (m.getD row []).contains c) hfind
    have hpiv : r ≤ pivot ∧ pivot < R := by
      obtain ⟨i, hi, rfl⟩ := List.mem_range'.mp hprange
      omega
    have hrltR : r < R := by omega
    have hcmem : c ∈ m.getD pivot [] := mem_of_contains hppred
    set m1 := swapRows m r pivot with hm1
    have hm1len : m1.length = R := by rw [hm1, length_swapRows, hlen]
    have hm1getD : ∀ k, m1.getD k [] = (if k = pivot then m.getD r []
        else if k = r then m.getD pivot [] else m.getD k []) := fun k =>
      getD_swapRows m k (by omega) (by omega)
    have hm1sorted : ∀ k, (m1.getD k []).Pairwise (· < ·) := by
      intro k
      rw [hm1getD k]
      split_ifs <;> exact hsort _
    have hm1bnd : ∀ k, ∀ x ∈ m1.getD k [], x < C := by
      intro k
      rw [hm1getD k]
      split_ifs <;> exact hbnd _
    have hm1supp : ∀ k, r ≤ k → ∀ x ∈ m1.getD k [], c ≤ x := by
      intro k hk
      rw [hm1getD k]
      split_ifs with h1 h2
      · exact hsupp r (le_refl r)
      · exact hsupp pivot hpiv.1
      · exact hsupp k hk
    have hm1row_r : m1.getD r [] = m.getD pivot [] := by
      rw [hm1getD r]
      by_cases h1 : r = pivot
      · rw [if_pos h1, h1]
      · rw [if_neg h1, if_pos rfl]
    have hspan1 : rowSpan R C m1 = rowSpan R C m :=
      rowSpan_swapRows m hlen hrltR hpiv.2
    set m2 := rankElim m1 r c with hm2
    have hm2len : m2.length = R := by rw [hm2, length_rankElim, hm1len]
    have hm2getD : ∀ k, k < R → m2.getD k [] =
        (if k ≠ r ∧ (m1.getD k []).contains c = true then
          xorNeighbors (m1.getD k []) (m1.getD r []) else m1.getD k []) :=
      fun k hk => getD_rankElim m1 r c (by omega)
    have hm2ge : ∀ k, R ≤ k → m2.getD k [] = [] :=
      fun k hk => getD_rankElim_ge m1 r c (by omega)
    refine ⟨hm2len, ?_, ?_, by omega, ?_, ?_, ?_⟩
    · intro k
      rcases lt_or_ge k R with hk | hk
      · rw [hm2getD k hk]
        split_ifs
        · exact xorNeighbors_sorted _ _ (hm1sorted k) (hm1sorted r)
        · exact hm1sorted k
      · rw [hm2ge k hk]
        exact List.Pairwise.nil
    · intro k x hx
      rcases lt_or_ge k R with hk | hk
      · rw [hm2getD k hk] at hx
        split_ifs at hx with hcond
        · rcases mem_of_mem_xorNeighbors (hm1sorted k) (hm1sorted r) hx
            with h1 | h1
          · exact hm1bnd k x h1
          · exact hm1bnd r x h1
        · exact hm1bnd k x hx
      · rw [hm2ge k hk] at hx
        exact absurd hx (List.not_mem_nil x)
    · rw [← hspan, ← hspan1]
      exact rowSpan_rankElim m1 hm1len hrltR hm1sorted
    · intro k hk x hx
      rcases lt_or_ge k R with hkR | hkR
      · rw [hm2getD k hkR] at hx
        have hkr : k ≠ r := by omega
        by_cases hcont : (m1.getD k []).contains c = true
        · rw [if_pos ⟨hkr, hcont⟩] at hx
          have hcmem1 : c ∈ m1.getD k [] := mem_of_contains hcont
          have hcmemr : c ∈ m1.getD r [] := by
            rw [hm1row_r]
            exact hcmem
          have hge : c ≤ x := by
            rcases mem_of_mem_xorNeighbors (hm1sorted k) (hm1sorted r) hx
              with h1 | h1
            · exact hm1supp k (by omega) x h1
            · exact hm1supp r (le_refl r) x h1
          have hne : x ≠ c := by
            intro heq
            subst heq
            rcases (mem_xorNeighbors x _ _ (hm1sorted k) (hm1sorted r)).mp hx
              with ⟨-, hnot⟩ | ⟨hnot, -⟩
            · exact hnot hcmemr
            · exact hnot hcmem1
          omega
        · rw [if_neg (fun hand => hcont hand.2)] at hx
          have hge : c ≤ x := hm1supp k (by omega) x hx
          have hne : x ≠ c := by
            intro heq
            subst heq
            exact hcont (contains_of_mem hx)
          omega
      · rw [hm2ge k hkR] at hx
        exact absurd hx (List.not_mem_nil x)
    · refine ⟨fun j : Fin (r + 1) =>
        if h : (j : Nat) < r then pcols ⟨j, h⟩ else c, ?_, ?_, ?_⟩
      · intro j
        dsimp only
        by_cases hj : (j : Nat) < r
        · rw [dif_pos hj]
          exact lt_trans (hpc _) (Nat.lt_succ_self c)
        · rw [dif_neg hj]
          exact Nat.lt_succ_self c
      · intro j
        dsimp only
        by_cases hj : (j : Nat) < r
        · rw [dif_pos hj]
          have hjR : (j : Nat) < R := by omega
          have hm1j : m1.getD (j : Nat) [] = m.getD (j : Nat) [] := by
            rw [hm1getD, if_neg (by omega), if_neg (by omega)]
          have hpj_in_m : pcols ⟨j, hj⟩ ∈ m.getD (j : Nat) [] := hpmem ⟨j, hj⟩
          have hpj_not_r : pcols ⟨j, hj⟩ ∉ m1.getD r [] := by
            rw [hm1row_r]
            exact hpexcl ⟨j, hj⟩ pivot (by omega)
          rw [hm2getD _ hjR]
          by_cases hcond : ((j : Nat) ≠ r ∧ (m1.getD (j : Nat) []).contains c = true)
          · rw [if_pos hcond]
            refine (mem_xorNeighbors _ _ _ (hm1sorted _) (hm1sorted r)).mpr
              (Or.inl ⟨?_, hpj_not_r⟩)
            rw [hm1j]
            exact hpj_in_m
          · rw [if_neg hcond, hm1j]
            exact hpj_in_m
        · rw [dif_neg hj]
          have hjr : (j : Nat) = r := by omega
          rw [hjr, hm2getD r (by omega), if_neg (by simp), hm1row_r]
          exact hcmem
      · intro j i hij
        dsimp only at hij ⊢
        by_cases hj : (j : Nat) < r
        · rw [dif_pos hj]
          rcases lt_or_ge i R with hiR | hiR
          · have hm1i_ne : pcols ⟨j, hj⟩ ∉ m1.getD i [] := by
              rw [hm1getD i]
              split_ifs with h1 h2
              · exact hpexcl ⟨j, hj⟩ r (by omega)
              · exact hpexcl ⟨j, hj⟩ pivot (by omega)
              · exact hpexcl ⟨j, hj⟩ i hij
            have hm1r_ne : pcols ⟨j, hj⟩ ∉ m1.getD r [] := by
              rw [hm1row_r]
              exact hpexcl ⟨j, hj⟩ pivot (by omega)
            rw [hm2getD i hiR]
            split_ifs with hcond
            · intro hx
              rcases mem_of_mem_xorNeighbors (hm1sorted i) (hm1sorted r) hx
                with h1 | h1
              · exact hm1i_ne h1
              · exact hm1r_ne h1
            · exact hm1i_ne
          · rw [hm2ge i hiR]
            exact List.not_mem_nil _
        · rw [dif_neg hj]
          have hjr : (j : Nat) = r := by omega
          rw [hjr] at hij
          rcases lt_or_ge i R with hiR | hiR
          · rw [hm2getD i hiR]
            by_cases hcont : (m1.getD i []).contains c = true
            · rw [if_pos ⟨hij, hcont⟩]
              intro hx
              rcases (mem_xorNeighbors c _ _ (hm1sorted i) (hm1sorted r)).mp hx
                with ⟨-, hnot⟩ | ⟨hnot, -⟩
              · refine hnot ?_
                rw [hm1row_r]
                exact hcmem
              · exact hnot (mem_of_contains hcont)
            · rw [if_neg (fun hand => hcont hand.2)]
              intro hx
              exact hcont (contains_of_mem hx)
          · rw [hm2ge i hiR]
            exact List.not_mem_nil _

theorem rankFold_inv {R C : Nat} {S : Submodule (ZMod 2) (Fin C → ZMod 2)} :
    ∀ (k c0 : Nat) (st : List (List Nat) × Nat), RankInv R C S c0 st →
      RankInv R C S (c0 + k) ((List.range' c0 k).foldl (rankStep R) st) := by
  intro k
  induction k with
  | zero =>
    intro c0 st h
    simpa using h
  | succ k ih =>
    intro c0 st h
    rw [List.range'_succ, List.foldl_cons]
    have hstep : RankInv R C S (c0 + 1) (rankStep R st c0) := by
      obtain ⟨m, r⟩ := st
      exact rankStep_inv h
    have := ih (c0 + 1) (rankStep R st c0) hstep
    rw [show c0 + (k + 1) = c0 + 1 + k from by omega]
    exact this

theorem rankInv_finrank {R C : Nat} {S : Submodule (ZMod 2) (Fin C → ZMod 2)}
    {st : List (List Nat) × Nat} (h : RankInv R C S C st) :
    st.2 = Module.finrank (ZMod 2) S := by
  obtain ⟨m, r⟩ := st
  obtain ⟨hlen, hsort, hbnd, hrR, hspan, hsupp, pcols, hpc, hpmem, hpexcl⟩ := h
  dsimp only at hlen hsort hbnd hrR hspan hsupp pcols hpc hpmem hpexcl
  have hempty : ∀ i : Nat, r ≤ i → m.getD i [] = [] := by
    intro i hi
    rw [List.eq_nil_iff_forall_not_mem]
    intro x hx
    exact absurd (hbnd i x hx) (not_lt_of_ge (hsupp i hi x hx))
  set g : Fin r → (Fin C → ZMod 2) :=
    fun j => rowVec C (m.getD (j : Nat) []) with hg
  have hinj : ∀ (j : Fin r) (i : Fin r), i ≠ j →
      pcols j ∉ m.getD (i : Nat) [] := by
    intro j i hne
    exact hpexcl j (i : Nat) (fun h => hne (Fin.ext h))
  have hli : LinearIndependent (ZMod 2) g := by
    rw [Fintype.linearIndependent_iff]
    intro a hsum j
    have hpcC : pcols j < C := hpc j
    have := congrFun hsum ⟨pcols j, hpcC⟩
    rw [Finset.sum_apply] at this
    have hterm : ∀ i : Finset.univ (α := Fin r),
        True := fun _ => trivial
    have heval : ∀ i : Fin r,
        (a i • g i) ⟨pcols j, hpcC⟩ = a i * (if i = j then 1 else 0) := by
      intro i
      rw [Pi.smul_apply, smul_eq_mul]
      congr 1
      rw [hg]
      dsimp only
      rw [rowVec]
      by_cases hij : i = j
      · subst hij
        rw [if_pos (hpmem i), if_pos rfl]
      · rw [if_neg (hinj j i hij), if_neg hij]
    rw [Finset.sum_congr rfl (fun i _ => heval i)] at this
    simp only [mul_ite, mul_one, mul_zero] at this
    rw [Finset.sum_ite_eq' Finset.univ j a] at this
    simpa using this
  have hsubsetg : Set.range g ⊆
      Set.range fun i : Fin R => rowVec C (m.getD (i : Nat) []) := by
    rintro _ ⟨j, rfl⟩
    exact ⟨⟨(j : Nat), lt_of_lt_of_le j.isLt hrR⟩, rfl⟩
  have hsubsetf : (Set.range fun i : Fin R => rowVec C (m.getD (i : Nat) [])) ⊆
      insert 0 (Set.range g) := by
    rintro _ ⟨i, rfl⟩
    by_cases hi : (i : Nat) < r
    · exact Set.mem_insert_of_mem _ ⟨⟨(i : Nat), hi⟩, rfl⟩
    · refine Set.mem_insert_iff.mpr (Or.inl ?_)
      dsimp only
      rw [hempty (i : Nat) (by omega), rowVec_nil]
  have hspan_eq : S = Submodule.span (ZMod 2) (Set.range g) := by
    rw [← hspan]
    unfold rowSpan
    apply le_antisymm
    · refine le_trans (Submodule.span_mono hsubsetf) ?_
      rw [Submodule.span_insert_zero]
    · exact Submodule.span_mono hsubsetg
  have hcard := linearIndependent_iff_card_eq_finrank_span.mp hli
  rw [Fintype.card_fin] at hcard
  calc r = Module.finrank (ZMod 2)
        (Submodule.span (ZMod 2) (Set.range g)) := hcard
    _ = Module.finrank (ZMod 2) S :=
      (congrArg (fun N : Submodule (ZMod 2) (Fin C → ZMod 2) =>
        Module.finrank (ZMod 2) N) hspan_eq).symm

theorem rankStep_le {R : Nat} (st : List (List Nat) × Nat) (c : Nat) :
    (rankStep R st c).2 ≤ st.2 + 1 ∧
      (st.2 ≤ R → (rankStep R st c).2 ≤ R) := by
  unfold rankStep
  cases hfind : (List.range' st.2 (R - st.2)).find?
      (fun row => (st.1.getD row []).contains c) with
  | none =>
    exact ⟨Nat.le_succ _, fun h => h⟩
  | some pivot =>
    have hprange : pivot ∈ List.range' st.2 (R - st.2) :=
      List.mem_of_find?_eq_some hfind
    obtain ⟨i, hi, rfl⟩ := List.mem_range'.mp hprange
    refine ⟨le_refl _, fun h => ?_⟩
    show st.2 + 1 ≤ R
    omega

theorem rankFold_le {R : Nat} :
    ∀ (l : List Nat) (st : List (List Nat) × Nat),
      (l.foldl (rankStep R) st).2 ≤ st.2 + l.length ∧
        (st.2 ≤ R → (l.foldl (rankStep R) st).2 ≤ R) := by
  intro l
  induction l with
  | nil =>
    intro st
    exact ⟨by simp, fun h => by simpa using h⟩
  | cons c l ih =>
    intro st
    rw [List.foldl_cons]
    obtain ⟨h1, h2⟩ := rankStep_le (R := R) st c
    obtain ⟨ih1, ih2⟩ := ih (rankStep R st c)
    constructor
    · calc (l.foldl (rankStep R) (rankStep R st c)).2
          ≤ (rankStep R st c).2 + l.length := ih1
        _ ≤ st.2 + 1 + l.length := Nat.add_le_add_right h1 l.length
        _ = st.2 + (c :: l).length := by
          rw [List.length_cons]
          omega
    · exact fun h => ih2 (h2 h)

theorem rank_le_min (A : BinarySparseMatrix) :
    A.rank ≤ min A.nRows A.nCols := by
  unfold BinarySparseMatrix.rank
  obtain ⟨h1, h2⟩ := rankFold_le (R := A.nRows) (List.range A.nCols) (A.rowAdj, 0)
  refine le_min (h2 (Nat.zero_le _)) ?_
  simpa using h1

theorem rank_eq_finrank_rowSpan (A : BinarySparseMatrix)
    (hw : rowsWellFormed A) :
    A.rank = Module.finrank (ZMod 2)
      (rowSpan A.nRows A.nCols A.rowAdj) := by
  obtain ⟨hlen, hsorted, hrange⟩ := hw
  have hbase : RankInv A.nRows A.nCols (rowSpan A.nRows A.nCols A.rowAdj) 0
      (A.rowAdj, 0) := by
    refine ⟨hlen, ?_, ?_, Nat.zero_le _, rfl, ?_, ?_⟩
    · intro i
      rcases lt_or_ge i A.rowAdj.length with hi | hi
      · rw [getD_eq_getElem_of_lt hi]
        exact hsorted _ (List.getElem_mem hi)
      · rw [getD_eq_nil_of_le hi]
        exact List.Pairwise.nil
    · intro i x hx
      rcases lt_or_ge i A.rowAdj.length with hi | hi
      · rw [getD_eq_getElem_of_lt hi] at hx
        exact hrange _ (List.getElem_mem hi) x hx
      · rw [getD_eq_nil_of_le hi] at hx
        exact absurd hx (List.not_mem_nil x)
    · intro i hi x hx
      exact Nat.zero_le x
    · refine ⟨fun j => Fin.elim0 j, fun j => Fin.elim0 j,
        fun j => Fin.elim0 j, fun j => Fin.elim0 j⟩
  have hfold := rankFold_inv A.nCols 0 (A.rowAdj, 0) hbase
  rw [Nat.zero_add] at hfold
  unfold BinarySparseMatrix.rank
  rw [List.range_eq_range']
  exact rankInv_finrank hfold

theorem enumFrom_pairwise_fst {α : Type _} (l : List α) :
    ∀ n : Nat,
      List.Pairwise (fun p q : Nat × α => p.1 < q.1) (l.enumFrom n) := by
  induction l with
  | nil =>
    intro n
    simp
  | cons x xs ih =>
    intro n
    rw [List.enumFrom_cons]
    refine List.pairwise_cons.mpr ⟨?_, ih (n + 1)⟩
    rintro ⟨a, b⟩ hq
    have h := List.mk_mem_enumFrom_iff_le_and_get?_sub.mp hq
    exact lt_of_lt_of_le (Nat.lt_succ_self n) h.1

theorem derived_sorted {n : Nat} {outer res : List (List Nat)}
    (h : buildDerived (List.replicate n []) outer = some res)
    (hnd : ∀ nb ∈ outer, nb.Nodup) (t : Nat) :
    (res.getD t []).Pairwise (· < ·) := by
  obtain ⟨-, hget⟩ := buildDerived_spec h
  rw [hget t, List.pairwise_flatten]
  constructor
  · intro l hl
    rw [List.mem_map] at hl
    obtain ⟨p, hp, rfl⟩ := hl
    have hnb : p.2 ∈ outer := List.get?_mem (List.mem_enum_iff_get?.mp hp)
    have hcnt : p.2.count t ≤ 1 := List.nodup_iff_count_le_one.mp (hnd _ hnb) t
    rcases Nat.le_one_iff_eq_zero_or_eq_one.mp hcnt with h0 | h1
    · rw [h0]
      simp
    · rw [h1]
      simp
  · rw [List.pairwise_map]
    refine (enumFrom_pairwise_fst outer 0).imp ?_
    intro p q hpq x hx y hy
    rw [List.eq_of_mem_replicate hx, List.eq_of_mem_replicate hy]
    exact hpq

theorem derived_entry_lt {n : Nat} {outer res : List (List Nat)}
    (h : buildDerived (List.replicate n []) outer = some res) (x t : Nat)
    (hx : x ∈ res.getD t []) : x < outer.length := by
  obtain ⟨nb, hnb, -⟩ := (buildDerived_mem h x t).mp hx
  by_contra hge
  rw [List.get?_eq_none.mpr (by omega)] at hnb
  cases hnb

/-- C9: for well-formed sparse matrices, rank is at most
min(rows, cols), and transpose succeeds and preserves rank. -/
theorem sparse_rank_c9 (A : BinarySparseMatrix) (hw : rowsWellFormed A) :
    A.rank ≤ min A.nRows A.nCols ∧
      ∃ T, A.transpose = some T ∧ T.rank = A.rank := by
  refine ⟨rank_le_min A, ?_⟩
  obtain ⟨T, hT, hTeq, hTbuild⟩ := transpose_some hw
  refine ⟨T, hT, ?_⟩
  obtain ⟨hlen, hsorted, hrange⟩ := hw
  obtain ⟨nR', nC', ra, ca⟩ := T
  rw [BinarySparseMatrix.mk.injEq] at hTeq
  obtain ⟨h1, h2, -, h4⟩ := hTeq
  subst h1
  subst h2
  subst h4
  dsimp only at hTbuild ⊢
  have hwT : rowsWellFormed ⟨A.nCols, A.nRows, ra, A.rowAdj⟩ := by
    refine ⟨(buildDerived_spec hTbuild).1, ?_, ?_⟩
    · intro v hv
      obtain ⟨t, ht⟩ := List.mem_iff_get?.mp hv
      have hgd : ra.getD t [] = v := by
        rw [List.getD, ht]
        rfl
      rw [← hgd]
      exact derived_sorted hTbuild
        (fun nb hnb => nodup_of_pairwise_lt (hsorted nb hnb)) t
    · intro v hv x hx
      obtain ⟨t, ht⟩ := List.mem_iff_get?.mp hv
      have hgd : ra.getD t [] = v := by
        rw [List.getD, ht]
        rfl
      rw [← hgd] at hx
      have := derived_entry_lt hTbuild x t hx
      rw [hlen] at this
      exact this
  rw [rank_eq_finrank_rowSpan _ hwT,
    rank_eq_finrank_rowSpan A ⟨hlen, hsorted, hrange⟩]
  have hMT : matOfRows A.nCols A.nRows ra =
      Matrix.transpose (matOfRows A.nRows A.nCols A.rowAdj) := by
    ext i j
    rw [Matrix.transpose_apply]
    show rowVec A.nRows (ra.getD (i : Nat) []) j =
      rowVec A.nCols (A.rowAdj.getD (j : Nat) []) i
    unfold rowVec
    have hiff : ((j : Nat) ∈ ra.getD (i : Nat) []) ↔
        ((i : Nat) ∈ A.rowAdj.getD (j : Nat) []) :=
      (buildDerived_mem hTbuild (j : Nat) (i : Nat)).trans
        mem_getD_iff_get?.symm
    exact if_congr hiff rfl rfl
  calc Module.finrank (ZMod 2) (rowSpan A.nCols A.nRows ra)
      = (matOfRows A.nCols A.nRows ra).rank :=
        (Matrix.rank_eq_finrank_span_row _).symm
    _ = (Matrix.transpose (matOfRows A.nRows A.nCols A.rowAdj)).rank := by
        rw [hMT]
    _ = (matOfRows A.nRows A.nCols A.rowAdj).rank :=
        Matrix.rank_transpose _
    _ = Module.finrank (ZMod 2) (rowSpan A.nRows A.nCols A.rowAdj) :=
        Matrix.rank_eq_finrank_span_row _

/-- C9 witness: the 3 x 4 matrix from the library documentation with rows
[[0,1],[1,2],[2,3]]: rank bound and transpose invariance hold. -/
theorem sparse_rank_c9_witness :
    (BinarySparseMatrix.mk 3 4 [[0, 1], [1, 2], [2, 3]]
        [[0], [0, 1], [1, 2], [2]]).rank ≤ min 3 4 ∧
      ∃ T, (BinarySparseMatrix.mk 3 4 [[0, 1], [1, 2], [2, 3]]
          [[0], [0, 1], [1, 2], [2]]).transpose = some T ∧
        T.rank = (BinarySparseMatrix.mk 3 4 [[0, 1], [1, 2], [2, 3]]
          [[0], [0, 1], [1, 2], [2]]).rank :=
  sparse_rank_c9 _ (by decide)
